import Mathlib

/-!
Verification of the CulinaLens ingredient pipeline: the text normalizer,
plural folding, OCR text-to-ingredient parser and fuzzy matcher
(src/modules/ocr.py), the recipe scoring engine (src/modules/suggestor.py),
the nutrition summariser (src/modules/nutrition.py) and the substitution
advisor (src/modules/substitutes.py), shallowly embedded in Lean.

Text is modelled as `List Nat` of Unicode code points (`str` injects a Lean
string literal).  Python floats are modelled as exact rationals (`ℚ`).
Python `set`s are modelled as duplicate-free lists; where the code sorts a
set into a list, an insertion sort over the code-point lexicographic order
models `sorted`.
-/

set_option maxRecDepth 100000

namespace CulinaLens

/-- Code points of a string literal. -/
def str (s : String) : List Nat := s.data.map Char.toNat

/-- Invisible characters removed by `_NON_PRINTABLE_RE`
(U+200B, U+200C, U+200D, U+FEFF). -/
def invisSet : List Nat := [0x200B, 0x200C, 0x200D, 0xFEFF]

/-- Whitespace code points: the characters Python's `str.strip()` and the
regex class `\s` treat as whitespace (ASCII whitespace, the C0/C1
separators, NBSP, Ogham space, the Unicode space separators and line/para
separators). -/
def wsSet : List Nat := [9, 10, 11, 12, 13, 28, 29, 30, 31, 32, 0x85, 0xA0,
  0x1680, 0x2000, 0x2001, 0x2002, 0x2003, 0x2004, 0x2005, 0x2006, 0x2007,
  0x2008, 0x2009, 0x200A, 0x2028, 0x2029, 0x202F, 0x205F, 0x3000]

/-- Whitespace test on a code point. -/
def isWs (c : Nat) : Bool := wsSet.contains c

/-- Code points whose NFKC normal form is a plain space: NBSP and the
compatibility space separators U+2000..U+200A, U+202F, U+205F, U+3000. -/
def compatSpaceSet : List Nat := [0xA0, 0x2000, 0x2001, 0x2002, 0x2003,
  0x2004, 0x2005, 0x2006, 0x2007, 0x2008, 0x2009, 0x200A, 0x202F, 0x205F,
  0x3000]

/-- Character-wise model of `unicodedata.normalize("NFKC", text)`, restricted
to the character repertoire this development compares against: compatibility
space characters are mapped to U+0020 and every other code point is fixed.
Full NFKC agrees with this on ASCII text, on the quote and punctuation
characters of the strip set, on the invisible characters and on all
whitespace. It is NOT faithful to full NFKC on arbitrary input: being
pointwise, it cannot express canonical composition of sequences (e.g. NFKC
sends U+0061 U+0301 to U+00E1), so properties quantified over all inputs
that hinge on NFKC's sequence behaviour — notably idempotence of the
source's `normalize`, which fails on U+0061 U+200C U+0301 because removing
U+200C after NFKC leaves a decomposed pair that a second pass composes —
cannot be settled against this model. Theorems below that quantify over
all code-point lists and touch `normalize` only through this model are
facts about the model; theorems evaluated at concrete inputs drawn from
the faithful repertoire (ASCII, strip set, invisibles, whitespace) are
exact about the program. -/
def nfkcChar (c : Nat) : Nat := if compatSpaceSet.contains c then 32 else c

/-- Code points of the characters stripped from both ends by
`s.strip(" \t\n\r\"'“”‘’.,;:()[]")`: space, tab, LF, CR, straight and curly
quotes, and the listed punctuation/bracket characters. -/
def stripSet : List Nat := [32, 9, 10, 13, 34, 39, 0x201C, 0x201D, 0x2018,
  0x2019, 46, 44, 59, 58, 40, 41, 91, 93]

/-- Membership test in the strip set. -/
def isStrip (c : Nat) : Bool := stripSet.contains c

/-- ASCII lower-casing of a code point (Python `str.lower` restricted to the
ASCII repertoire this development compares against). -/
def lowerChar (c : Nat) : Nat := if 65 ≤ c ∧ c ≤ 90 then c + 32 else c

/-- Removal of trailing characters satisfying `p` (the right half of a
Python `strip`). -/
def stripTrail (p : Nat → Bool) (l : List Nat) : List Nat :=
  (l.reverse.dropWhile p).reverse

/-- Python `s.strip(chars)`: removal of the maximal leading and trailing
runs of characters satisfying `p`. -/
def pyStrip (p : Nat → Bool) (l : List Nat) : List Nat :=
  stripTrail p (l.dropWhile p)

/-- Replacement of every maximal run of whitespace by one space, the effect
of `_MULTI_SPACE_RE.sub(" ", s)`; the flag records whether the previous
character was whitespace. -/
def collapseWs : Bool → List Nat → List Nat
  | _, [] => []
  | prevWs, c :: rest =>
    if isWs c then
      if prevWs then collapseWs true rest else 32 :: collapseWs true rest
    else c :: collapseWs false rest

/-- Model of `normalize` (the identical function defined in ocr.py,
suggestor.py, nutrition.py and substitutes.py): NFKC normalization, removal
of the invisible characters, NBSP→space, whitespace strip, whitespace
collapsing, punctuation/quote edge stripping, lower-casing.  Non-string
input (which the source maps to `""`) is outside the embedded domain. -/
def normalize (t : List Nat) : List Nat :=
  (pyStrip isStrip (collapseWs false (pyStrip isWs
    (((t.map nfkcChar).filter (fun c => !(invisSet.contains c))).map
      (fun c => if c == 0xA0 then 32 else c))))).map lowerChar

/-! Characterization of the strings fixed by `normalize`, used to prove that
`normalize` is idempotent. -/

/-- Characters fixed by every stage of `normalize`: not a compatibility
space, not invisible, not an ASCII upper-case letter, and whitespace only if
equal to the plain space. -/
def fixedChar (c : Nat) : Bool :=
  !(compatSpaceSet.contains c) && !(invisSet.contains c) &&
    !(decide (65 ≤ c) && decide (c ≤ 90)) && (!(isWs c) || c == 32)

/-- No two adjacent whitespace characters. -/
def noAdjWs : List Nat → Bool
  | a :: b :: rest => (!(isWs a && isWs b)) && noAdjWs (b :: rest)
  | _ => true

/-- The head, when present, is neither whitespace nor in the strip set. -/
def headOk (l : List Nat) : Bool :=
  match l.head? with
  | none => true
  | some c => !(isWs c) && !(isStrip c)

/-- A string is normalized when all its characters are stage-fixed, it has no
adjacent whitespace, and neither end carries whitespace or strip-set
characters. -/
def normalizedStr (l : List Nat) : Bool :=
  l.all fixedChar && noAdjWs l && headOk l && headOk l.reverse

theorem fixedChar_not_compat {c : Nat} (h : fixedChar c = true) :
    compatSpaceSet.contains c = false := by
  simp only [fixedChar, Bool.and_eq_true, Bool.not_eq_true'] at h
  exact h.1.1.1

theorem fixedChar_not_invis {c : Nat} (h : fixedChar c = true) :
    invisSet.contains c = false := by
  simp only [fixedChar, Bool.and_eq_true, Bool.not_eq_true'] at h
  exact h.1.1.2

theorem nfkcChar_eq_of_fixed {c : Nat} (h : fixedChar c = true) : nfkcChar c = c := by
  unfold nfkcChar
  rw [fixedChar_not_compat h]
  simp

theorem lowerChar_eq_of_fixed {c : Nat} (h : fixedChar c = true) : lowerChar c = c := by
  simp only [fixedChar, Bool.and_eq_true, Bool.not_eq_true',
    Bool.and_eq_false_iff, decide_eq_false_iff_not] at h
  have := h.1.2
  unfold lowerChar
  split
  · omega
  · rfl

theorem ne_nbsp_of_fixed {c : Nat} (h : fixedChar c = true) : (c == 0xA0) = false := by
  have h1 := fixedChar_not_compat h
  rcases eq_or_ne c 0xA0 with h2 | h2
  · subst h2; simp [compatSpaceSet] at h1
  · simp [h2]

theorem ws_eq_space_of_fixed {c : Nat} (h : fixedChar c = true) (hw : isWs c = true) :
    c = 32 := by
  simp only [fixedChar, Bool.and_eq_true] at h
  have := h.2
  rw [hw] at this
  simpa using this

theorem dropWhile_eq_self_of_head {p : Nat → Bool} {l : List Nat}
    (h : ∀ c, l.head? = some c → p c = false) : l.dropWhile p = l := by
  cases l with
  | nil => rfl
  | cons c rest => simp [List.dropWhile, h c rfl]

theorem stripTrail_eq_self_of_last {p : Nat → Bool} {l : List Nat}
    (h : ∀ c, l.reverse.head? = some c → p c = false) : stripTrail p l = l := by
  unfold stripTrail
  rw [dropWhile_eq_self_of_head h, List.reverse_reverse]

theorem noAdjWs_tail {a : Nat} {l : List Nat} (h : noAdjWs (a :: l) = true) :
    noAdjWs l = true := by
  cases l with
  | nil => rfl
  | cons b rest =>
    simp only [noAdjWs, Bool.and_eq_true] at h
    exact h.2

theorem noAdjWs_cons_pair {a b : Nat} {l : List Nat}
    (h : noAdjWs (a :: b :: l) = true) : (isWs a && isWs b) = false := by
  simp only [noAdjWs, Bool.and_eq_true, Bool.not_eq_true'] at h
  exact h.1

theorem collapseWs_eq_self {l : List Nat}
    (hws : ∀ c ∈ l, isWs c = true → c = 32) (hadj : noAdjWs l = true) :
    collapseWs false l = l := by
  induction l with
  | nil => rfl
  | cons c rest ih =>
    have hstep : collapseWs false (c :: rest) =
        if isWs c then 32 :: collapseWs true rest else c :: collapseWs false rest := rfl
    by_cases hc : isWs c = true
    · have hc32 : c = 32 := hws c (by simp) hc
      have hrest : collapseWs true rest = rest := by
        cases rest with
        | nil => rfl
        | cons d rest2 =>
          have hpair := noAdjWs_cons_pair hadj
          rw [hc] at hpair
          simp only [Bool.true_and] at hpair
          have hstep2 : collapseWs true (d :: rest2) = d :: collapseWs false rest2 := by
            show (if isWs d then collapseWs true rest2 else d :: collapseWs false rest2) =
              d :: collapseWs false rest2
            rw [hpair]
            simp
          rw [hstep2]
          have hih := ih (fun x hx hw => hws x (by simp [hx]) hw) (noAdjWs_tail hadj)
          have hstep3 : collapseWs false (d :: rest2) = d :: collapseWs false rest2 := by
            show (if isWs d then 32 :: collapseWs true rest2 else d :: collapseWs false rest2) =
              d :: collapseWs false rest2
            rw [hpair]
            simp
          rw [hstep3] at hih
          exact hih
      rw [hstep, hc, hrest, hc32]
      simp
    · have hrest := ih (fun x hx hw => hws x (by simp [hx]) hw) (noAdjWs_tail hadj)
      simp only [Bool.not_eq_true] at hc
      rw [hstep, hc, hrest]
      simp

theorem map_id_of_mem {f : Nat → Nat} {l : List Nat} (h : ∀ c ∈ l, f c = c) :
    l.map f = l := by
  induction l with
  | nil => rfl
  | cons c rest ih => simp [h c (by simp), ih (fun x hx => h x (by simp [hx]))]

/-- Normalized strings are fixed points of `normalize`. -/
theorem normalize_eq_self {l : List Nat} (h : normalizedStr l = true) :
    normalize l = l := by
  simp only [normalizedStr, Bool.and_eq_true, List.all_eq_true] at h
  obtain ⟨⟨⟨hall, hadj⟩, hhead⟩, hlast⟩ := h
  have hhead2 : ∀ c, l.head? = some c → isWs c = false ∧ isStrip c = false := by
    intro c hc
    simp only [headOk, hc, Bool.and_eq_true, Bool.not_eq_true'] at hhead
    exact hhead
  have hlast2 : ∀ c, l.reverse.head? = some c → isWs c = false ∧ isStrip c = false := by
    intro c hc
    simp only [headOk, hc, Bool.and_eq_true, Bool.not_eq_true'] at hlast
    exact hlast
  unfold normalize pyStrip
  have e1 : l.map nfkcChar = l :=
    map_id_of_mem (fun c hc => nfkcChar_eq_of_fixed (hall c hc))
  have e2 : l.filter (fun c => !(invisSet.contains c)) = l :=
    List.filter_eq_self.mpr (fun c hc => by rw [fixedChar_not_invis (hall c hc)]; rfl)
  have e3 : l.map (fun c => if c == 0xA0 then 32 else c) = l :=
    map_id_of_mem (fun c hc => by rw [ne_nbsp_of_fixed (hall c hc)]; simp)
  have e4 : l.dropWhile isWs = l :=
    dropWhile_eq_self_of_head (fun c hc => (hhead2 c hc).1)
  have e5 : stripTrail isWs l = l :=
    stripTrail_eq_self_of_last (fun c hc => (hlast2 c hc).1)
  have e6 : collapseWs false l = l :=
    collapseWs_eq_self (fun c hc => ws_eq_space_of_fixed (hall c hc)) hadj
  have e7 : l.dropWhile isStrip = l :=
    dropWhile_eq_self_of_head (fun c hc => (hhead2 c hc).2)
  have e8 : stripTrail isStrip l = l :=
    stripTrail_eq_self_of_last (fun c hc => (hlast2 c hc).2)
  have e9 : l.map lowerChar = l :=
    map_id_of_mem (fun c hc => lowerChar_eq_of_fixed (hall c hc))
  rw [e1, e2, e3, e4, e5, e6, e7, e8, e9]

theorem wsSet_not_letter {c : Nat} (h1 : 97 ≤ c) (h2 : c ≤ 122) : isWs c = false := by
  unfold isWs wsSet
  simp
  omega

theorem wsSet_not_upper {c : Nat} (h1 : 65 ≤ c) (h2 : c ≤ 90) : isWs c = false := by
  unfold isWs wsSet
  simp
  omega

theorem stripSet_not_letter {c : Nat} (h1 : 97 ≤ c) (h2 : c ≤ 122) :
    isStrip c = false := by
  unfold isStrip stripSet
  simp
  omega

theorem stripSet_not_upper {c : Nat} (h1 : 65 ≤ c) (h2 : c ≤ 90) :
    isStrip c = false := by
  unfold isStrip stripSet
  simp
  omega

theorem compatSet_not_letter {c : Nat} (h1 : 97 ≤ c) (h2 : c ≤ 122) :
    compatSpaceSet.contains c = false := by
  unfold compatSpaceSet
  simp
  omega

theorem invisSet_not_letter {c : Nat} (h1 : 97 ≤ c) (h2 : c ≤ 122) :
    invisSet.contains c = false := by
  unfold invisSet
  simp
  omega

theorem isWs_lowerChar (c : Nat) : isWs (lowerChar c) = isWs c := by
  unfold lowerChar
  split
  · rw [wsSet_not_letter (by omega) (by omega), wsSet_not_upper (by omega) (by omega)]
  · rfl

theorem isStrip_lowerChar (c : Nat) : isStrip (lowerChar c) = isStrip c := by
  unfold lowerChar
  split
  · rw [stripSet_not_letter (by omega) (by omega), stripSet_not_upper (by omega) (by omega)]
  · rfl

theorem mem_stripTrail_sub {p : Nat → Bool} {l : List Nat} {c : Nat}
    (h : c ∈ stripTrail p l) : c ∈ l := by
  unfold stripTrail at h
  rw [List.mem_reverse] at h
  have := (List.dropWhile_sublist p).subset h
  rwa [List.mem_reverse] at this

theorem mem_pyStrip_sub {p : Nat → Bool} {l : List Nat} {c : Nat}
    (h : c ∈ pyStrip p l) : c ∈ l :=
  (List.dropWhile_sublist p).subset (mem_stripTrail_sub h)

theorem mem_collapse {c : Nat} :
    ∀ {l : List Nat} {b : Bool}, c ∈ collapseWs b l →
      c = 32 ∨ (c ∈ l ∧ isWs c = false) := by
  intro l
  induction l with
  | nil => intro b h; simp [collapseWs] at h
  | cons x rest ih =>
    intro b h
    have hstep : collapseWs b (x :: rest) =
        if isWs x then (if b then collapseWs true rest else 32 :: collapseWs true rest)
        else x :: collapseWs false rest := rfl
    rw [hstep] at h
    by_cases hx : isWs x = true
    · rw [hx] at h
      simp only [if_true] at h
      cases b with
      | true =>
        simp only [if_true] at h
        rcases ih h with h1 | h1
        · exact Or.inl h1
        · exact Or.inr ⟨by simp [h1.1], h1.2⟩
      | false =>
        simp only [Bool.false_eq_true, if_false] at h
        rcases List.mem_cons.mp h with h1 | h1
        · exact Or.inl h1
        · rcases ih h1 with h2 | h2
          · exact Or.inl h2
          · exact Or.inr ⟨by simp [h2.1], h2.2⟩
    · simp only [Bool.not_eq_true] at hx
      rw [hx] at h
      simp only [Bool.false_eq_true, if_false] at h
      rcases List.mem_cons.mp h with h1 | h1
      · subst h1; exact Or.inr ⟨by simp, hx⟩
      · rcases ih h1 with h2 | h2
        · exact Or.inl h2
        · exact Or.inr ⟨by simp [h2.1], h2.2⟩

theorem head_collapse_true_not_ws :
    ∀ {l : List Nat} {c : Nat}, (collapseWs true l).head? = some c → isWs c = false := by
  intro l
  induction l with
  | nil => intro c h; simp [collapseWs] at h
  | cons x rest ih =>
    intro c h
    have hstep : collapseWs true (x :: rest) =
        if isWs x then collapseWs true rest else x :: collapseWs false rest := rfl
    rw [hstep] at h
    by_cases hx : isWs x = true
    · rw [hx] at h
      simp only [if_true] at h
      exact ih h
    · simp only [Bool.not_eq_true] at hx
      rw [hx] at h
      simp only [Bool.false_eq_true, if_false, List.head?_cons, Option.some.injEq] at h
      rw [← h]
      exact hx

theorem noAdj_cons_iff {a : Nat} {l : List Nat} :
    noAdjWs (a :: l) = true ↔
      (∀ d, l.head? = some d → (isWs a && isWs d) = false) ∧ noAdjWs l = true := by
  cases l with
  | nil => simp [noAdjWs]
  | cons b rest =>
    constructor
    · intro h
      have h1 : (!(isWs a && isWs b) && noAdjWs (b :: rest)) = true := h
      simp only [Bool.and_eq_true, Bool.not_eq_true'] at h1
      refine ⟨fun d hd => ?_, h1.2⟩
      simp only [List.head?_cons, Option.some.injEq] at hd
      rw [← hd]
      exact h1.1
    · rintro ⟨h1, h2⟩
      show (!(isWs a && isWs b) && noAdjWs (b :: rest)) = true
      simp only [Bool.and_eq_true, Bool.not_eq_true']
      exact ⟨h1 b rfl, h2⟩

theorem noAdj_collapse : ∀ (l : List Nat) (b : Bool), noAdjWs (collapseWs b l) = true := by
  intro l
  induction l with
  | nil => intro b; rfl
  | cons x rest ih =>
    intro b
    have hstep : collapseWs b (x :: rest) =
        if isWs x then (if b then collapseWs true rest else 32 :: collapseWs true rest)
        else x :: collapseWs false rest := rfl
    rw [hstep]
    by_cases hx : isWs x = true
    · rw [hx]
      simp only [if_true]
      cases b with
      | true => simpa using ih true
      | false =>
        simp only [Bool.false_eq_true, if_false]
        rw [noAdj_cons_iff]
        refine ⟨fun d hd => ?_, ih true⟩
        rw [head_collapse_true_not_ws hd]
        simp
    · simp only [Bool.not_eq_true] at hx
      rw [hx]
      simp only [Bool.false_eq_true, if_false]
      rw [noAdj_cons_iff]
      refine ⟨fun d _ => ?_, ih false⟩
      rw [hx]
      simp

theorem noAdj_dropWhile {p : Nat → Bool} {l : List Nat} (h : noAdjWs l = true) :
    noAdjWs (l.dropWhile p) = true := by
  induction l with
  | nil => exact h
  | cons x rest ih =>
    rw [List.dropWhile_cons]
    split
    · exact ih (noAdjWs_tail h)
    · exact h

theorem noAdj_cons_cons {a b : Nat} {l : List Nat} :
    noAdjWs (a :: b :: l) = true ↔
      (isWs a && isWs b) = false ∧ noAdjWs (b :: l) = true := by
  show ((!(isWs a && isWs b)) && noAdjWs (b :: l)) = true ↔ _
  simp only [Bool.and_eq_true, Bool.not_eq_true']

theorem noAdj_append_one : ∀ (l : List Nat) (x : Nat),
    noAdjWs (l ++ [x]) = true ↔
      (noAdjWs l = true ∧ ∀ y, l.getLast? = some y → (isWs y && isWs x) = false) := by
  intro l
  induction l with
  | nil => intro x; simp [noAdjWs]
  | cons c rest ih =>
    intro x
    cases rest with
    | nil =>
      have e1 : ([c] : List Nat) ++ [x] = c :: [x] := rfl
      rw [e1, noAdj_cons_cons]
      constructor
      · rintro ⟨h1, _⟩
        refine ⟨rfl, fun y hy => ?_⟩
        simp only [List.getLast?_singleton, Option.some.injEq] at hy
        rw [← hy]
        exact h1
      · rintro ⟨_, h2⟩
        exact ⟨h2 c (by simp), rfl⟩
    | cons d rest2 =>
      have e1 : (c :: d :: rest2) ++ [x] = c :: (d :: (rest2 ++ [x])) := rfl
      rw [e1, noAdj_cons_cons]
      have e2 : d :: (rest2 ++ [x]) = (d :: rest2) ++ [x] := rfl
      rw [e2, ih x, noAdj_cons_cons, List.getLast?_cons_cons]
      tauto

theorem noAdj_reverse {l : List Nat} (h : noAdjWs l = true) :
    noAdjWs l.reverse = true := by
  induction l with
  | nil => exact h
  | cons c rest ih =>
    rw [List.reverse_cons, noAdj_append_one]
    refine ⟨ih (noAdjWs_tail h), fun y hy => ?_⟩
    rw [List.getLast?_reverse] at hy
    have := (noAdj_cons_iff.mp h).1 y hy
    rwa [Bool.and_comm] at this

theorem noAdj_stripTrail {p : Nat → Bool} {l : List Nat} (h : noAdjWs l = true) :
    noAdjWs (stripTrail p l) = true :=
  noAdj_reverse (noAdj_dropWhile (noAdj_reverse h))

theorem noAdj_pyStrip {p : Nat → Bool} {l : List Nat} (h : noAdjWs l = true) :
    noAdjWs (pyStrip p l) = true :=
  noAdj_stripTrail (noAdj_dropWhile h)

theorem noAdj_map_lower : ∀ l : List Nat, noAdjWs (l.map lowerChar) = noAdjWs l := by
  intro l
  induction l with
  | nil => rfl
  | cons a rest ih =>
    cases rest with
    | nil => rfl
    | cons b rest2 =>
      show ((!(isWs (lowerChar a) && isWs (lowerChar b))) &&
          noAdjWs (lowerChar b :: rest2.map lowerChar)) =
        ((!(isWs a && isWs b)) && noAdjWs (b :: rest2))
      rw [isWs_lowerChar, isWs_lowerChar]
      have : noAdjWs (lowerChar b :: rest2.map lowerChar) = noAdjWs (b :: rest2) := ih
      rw [this]

theorem head?_dropWhile_not {p : Nat → Bool} :
    ∀ {l : List Nat} {c : Nat}, (l.dropWhile p).head? = some c → p c = false := by
  intro l
  induction l with
  | nil => intro c h; simp at h
  | cons x rest ih =>
    intro c h
    rw [List.dropWhile_cons] at h
    by_cases hp : p x = true
    · rw [if_pos hp] at h
      exact ih h
    · rw [if_neg hp] at h
      simp only [List.head?_cons, Option.some.injEq] at h
      rw [← h]
      exact Bool.not_eq_true _ |>.mp hp

theorem stripTrail_append_eq (p : Nat → Bool) (l : List Nat) :
    stripTrail p l ++ (l.reverse.takeWhile p).reverse = l := by
  unfold stripTrail
  rw [← List.reverse_append, List.takeWhile_append_dropWhile, List.reverse_reverse]

theorem head?_stripTrail {p : Nat → Bool} {l : List Nat} {c : Nat}
    (h : (stripTrail p l).head? = some c) : l.head? = some c := by
  have he := stripTrail_append_eq p l
  cases hs : stripTrail p l with
  | nil => rw [hs] at h; simp at h
  | cons d rest =>
    rw [hs] at h he
    simp only [List.head?_cons, Option.some.injEq] at h
    rw [← he, List.cons_append, List.head?_cons, h]

theorem head?_pyStrip_not {p : Nat → Bool} {l : List Nat} {c : Nat}
    (h : (pyStrip p l).head? = some c) : p c = false :=
  head?_dropWhile_not (head?_stripTrail h)

theorem last_pyStrip_not {p : Nat → Bool} {l : List Nat} {c : Nat}
    (h : (pyStrip p l).reverse.head? = some c) : p c = false := by
  unfold pyStrip stripTrail at h
  rw [List.reverse_reverse] at h
  exact head?_dropWhile_not h

theorem mem_of_head? {l : List Nat} {c : Nat} (h : l.head? = some c) : c ∈ l := by
  cases l with
  | nil => simp at h
  | cons d rest =>
    simp only [List.head?_cons, Option.some.injEq] at h
    simp [← h]

theorem nfkc_not_compat (x : Nat) : compatSpaceSet.contains (nfkcChar x) = false := by
  unfold nfkcChar
  by_cases h : compatSpaceSet.contains x = true
  · rw [if_pos h]; decide
  · rw [if_neg h]; exact Bool.not_eq_true _ |>.mp h

theorem fixedChar_lowerChar {c : Nat}
    (h1 : compatSpaceSet.contains c = false) (h2 : invisSet.contains c = false)
    (h3 : isWs c = true → c = 32) : fixedChar (lowerChar c) = true := by
  unfold lowerChar
  by_cases hU : 65 ≤ c ∧ c ≤ 90
  · rw [if_pos hU]
    unfold fixedChar
    rw [compatSet_not_letter (by omega) (by omega),
      invisSet_not_letter (by omega) (by omega),
      wsSet_not_letter (by omega) (by omega)]
    have hup : (decide (65 ≤ c + 32) && decide (c + 32 ≤ 90)) = false := by
      have h90 : ¬ (c + 32 ≤ 90) := by omega
      simp [h90]
    rw [hup]
    rfl
  · rw [if_neg hU]
    unfold fixedChar
    have hup : (decide (65 ≤ c) && decide (c ≤ 90)) = false := by
      by_cases ha : 65 ≤ c
      · by_cases hb : c ≤ 90
        · exact absurd ⟨ha, hb⟩ hU
        · simp [hb]
      · simp [ha]
    rw [h1, h2, hup]
    have hws : ((!(isWs c)) || (c == 32)) = true := by
      by_cases hw : isWs c = true
      · simp [h3 hw]
      · simp only [Bool.not_eq_true] at hw
        simp [hw]
    rw [hws]
    rfl

/-- The output of `normalize` is a normalized string. -/
theorem normalizedStr_normalize (t : List Nat) : normalizedStr (normalize t) = true := by
  have hgood3 : ∀ c ∈ ((t.map nfkcChar).filter (fun c => !(invisSet.contains c))).map
      (fun c => if c == 0xA0 then 32 else c),
      compatSpaceSet.contains c = false ∧ invisSet.contains c = false := by
    intro c hc
    rw [List.mem_map] at hc
    obtain ⟨c0, hc0, hEq⟩ := hc
    rw [List.mem_filter] at hc0
    have hinv : invisSet.contains c0 = false := Bool.not_eq_true' _ |>.mp hc0.2
    have hmem := hc0.1
    rw [List.mem_map] at hmem
    obtain ⟨c1, _, hnf⟩ := hmem
    by_cases hn : (c0 == 0xA0) = true
    · simp only [hn, if_true] at hEq
      rw [← hEq]
      exact ⟨by decide, by decide⟩
    · simp only [hn, Bool.false_eq_true, if_false] at hEq
      rw [← hEq]
      exact ⟨by rw [← hnf]; exact nfkc_not_compat c1, hinv⟩
  have hgood5 : ∀ c ∈ collapseWs false (pyStrip isWs
      (((t.map nfkcChar).filter (fun c => !(invisSet.contains c))).map
        (fun c => if c == 0xA0 then 32 else c))),
      compatSpaceSet.contains c = false ∧ invisSet.contains c = false ∧
        (isWs c = true → c = 32) := by
    intro c hc
    rcases mem_collapse hc with h32 | ⟨hmem, hws⟩
    · subst h32
      exact ⟨by decide, by decide, fun _ => rfl⟩
    · have hg := hgood3 c (mem_pyStrip_sub hmem)
      exact ⟨hg.1, hg.2, fun hw => absurd hw (by simp [hws])⟩
  have hnorm : normalize t = (pyStrip isStrip (collapseWs false (pyStrip isWs
      (((t.map nfkcChar).filter (fun c => !(invisSet.contains c))).map
        (fun c => if c == 0xA0 then 32 else c))))).map lowerChar := rfl
  have hmemOk : ∀ c ∈ pyStrip isStrip (collapseWs false (pyStrip isWs
      (((t.map nfkcChar).filter (fun c => !(invisSet.contains c))).map
        (fun c => if c == 0xA0 then 32 else c)))),
      compatSpaceSet.contains c = false ∧ invisSet.contains c = false ∧
        (isWs c = true → c = 32) :=
    fun c hc => hgood5 c (mem_pyStrip_sub hc)
  unfold normalizedStr
  rw [hnorm]
  simp only [Bool.and_eq_true]
  refine ⟨⟨⟨?_, ?_⟩, ?_⟩, ?_⟩
  · rw [List.all_eq_true]
    intro c hc
    rw [List.mem_map] at hc
    obtain ⟨c0, hc0, hEq⟩ := hc
    rw [← hEq]
    have hg := hmemOk c0 hc0
    exact fixedChar_lowerChar hg.1 hg.2.1 hg.2.2
  · rw [noAdj_map_lower]
    exact noAdj_pyStrip (noAdj_collapse _ false)
  · unfold headOk
    rw [List.head?_map]
    cases hh : (pyStrip isStrip (collapseWs false (pyStrip isWs
        (((t.map nfkcChar).filter (fun c => !(invisSet.contains c))).map
          (fun c => if c == 0xA0 then 32 else c))))).head? with
    | none => rfl
    | some c0 =>
      have hstrip : isStrip c0 = false := head?_pyStrip_not hh
      have hmem := mem_of_head? hh
      have hg := hmemOk c0 hmem
      have hws : isWs c0 = false := by
        by_cases hw : isWs c0 = true
        · have h32 := hg.2.2 hw
          rw [h32] at hstrip
          exact absurd hstrip (by decide)
        · exact Bool.not_eq_true _ |>.mp hw
      simp [isWs_lowerChar, isStrip_lowerChar, hws, hstrip]
  · unfold headOk
    rw [← List.map_reverse, List.head?_map]
    cases hh : (pyStrip isStrip (collapseWs false (pyStrip isWs
        (((t.map nfkcChar).filter (fun c => !(invisSet.contains c))).map
          (fun c => if c == 0xA0 then 32 else c))))).reverse.head? with
    | none => rfl
    | some c0 =>
      have hstrip : isStrip c0 = false := last_pyStrip_not hh
      have hmem : c0 ∈ pyStrip isStrip (collapseWs false (pyStrip isWs
          (((t.map nfkcChar).filter (fun c => !(invisSet.contains c))).map
            (fun c => if c == 0xA0 then 32 else c)))) := by
        have := mem_of_head? hh
        rwa [List.mem_reverse] at this
      have hg := hmemOk c0 hmem
      have hws : isWs c0 = false := by
        by_cases hw : isWs c0 = true
        · have h32 := hg.2.2 hw
          rw [h32] at hstrip
          exact absurd hstrip (by decide)
        · exact Bool.not_eq_true _ |>.mp hw
      simp [isWs_lowerChar, isStrip_lowerChar, hws, hstrip]

/-- Idempotence of the embedded `normalize` MODEL only. Because `nfkcChar`
is pointwise, this does not transfer to the source: the real `normalize`
is not idempotent (input U+0061 U+200C U+0301: the first pass removes
U+200C after NFKC and returns the decomposed U+0061 U+0301; the second
pass NFKC-composes that to U+00E1). -/
theorem normalize_model_idempotent :
    ∀ t : List Nat, normalize (normalize t) = normalize t :=
  fun t => normalize_eq_self (normalizedStr_normalize t)

/-! The ingredient vocabulary, stopwords and plural folding of ocr.py. -/

/-- KNOWN_INGREDIENTS_BASE (a Python set; modelled as a list, order
immaterial). -/
def KNOWN_INGREDIENTS_BASE : List (List Nat) :=
  [str "eggs", str "onion", str "tomato", str "green chili", str "salt",
   str "pepper", str "oil", str "potato", str "wheat flour",
   str "chili powder", str "ghee", str "coriander", str "bread",
   str "peanut butter", str "garlic", str "ginger", str "butter", str "milk",
   str "sugar", str "turmeric", str "cumin", str "cilantro", str "spinach",
   str "cheddar cheese", str "olive oil", str "chicken breast",
   str "green chilli", str "green chilies", str "green chillies"]

/-- STOPWORDS (a Python set; modelled as a list, order immaterial). -/
def STOPWORDS : List (List Nat) :=
  [str "mrp", str "amount", str "subtotal", str "tax", str "total",
   str "balance", str "cash", str "tender", str "qty", str "quantity",
   str "price", str "rs", str "usd", str "inr", str "each", str "pcs",
   str "pc", str "kg", str "g", str "gm", str "gram", str "grams", str "ml",
   str "l", str "ltr", str "litre", str "liter", str "bottle", str "pack",
   str "dozen", str "net", str "wt", str "weight", str "discount",
   str "saved"]

/-- PLURAL_MAP, the fixed exception map consulted before the generic suffix
rules. -/
def PLURAL_MAP : List (List Nat × List Nat) :=
  [(str "tomatoes", str "tomato"), (str "potatoes", str "potato"),
   (str "chilies", str "chili"), (str "chillies", str "chili"),
   (str "green chilli", str "green chili"),
   (str "green chilies", str "green chili"),
   (str "green chillies", str "green chili"), (str "chillie", str "chili"),
   (str "olive oils", str "olive oil"), (str "breads", str "bread"),
   (str "peppers", str "pepper"), (str "corriander", str "coriander"),
   (str "egg", str "eggs")]

/-- Dictionary lookup in PLURAL_MAP (`token in PLURAL_MAP`). -/
def pluralLookup (t : List Nat) : Option (List Nat) :=
  match PLURAL_MAP.find? (fun kv => kv.1 == t) with
  | some kv => some kv.2
  | none => none

/-- Model of `_plural_to_singular_token`: the exception map first, then
`-ies`→`-y` for tokens longer than 3, then a trailing `-s` not preceded by
another `s`. -/
def plural_to_singular_token (token : List Nat) : List Nat :=
  match pluralLookup token with
  | some v => v
  | none =>
    if (str "ies").isSuffixOf token && decide (3 < token.length) then
      token.take (token.length - 3) ++ str "y"
    else if (str "s").isSuffixOf token && !((str "ss").isSuffixOf token) then
      token.take (token.length - 1)
    else token

/-- C4 counterexample: "eggs" is not a key of the exception map; the generic
trailing-s rule reduces it to "egg", so the claimed exception mapping
"eggs" → "eggs" is false. -/
theorem C4_counterexample :
    pluralLookup (str "eggs") = none ∧
      plural_to_singular_token (str "eggs") = str "egg" ∧
      plural_to_singular_token (str "eggs") ≠ str "eggs" := by decide

/-- C4 (amended): plural folding maps "tomatoes" to "tomato" and "chillies"
to "chili" via the fixed exception map; "eggs" is reduced by the generic
trailing-s rule to "egg" (the exception map instead maps the singular "egg"
to "eggs"); and for every token the exception map is consulted before the
generic suffix rules. -/
theorem C4_plural_folding :
    plural_to_singular_token (str "tomatoes") = str "tomato" ∧
    plural_to_singular_token (str "chillies") = str "chili" ∧
    plural_to_singular_token (str "eggs") = str "egg" ∧
    pluralLookup (str "egg") = some (str "eggs") ∧
    plural_to_singular_token (str "egg") = str "eggs" ∧
    (∀ t v : List Nat, pluralLookup t = some v → plural_to_singular_token t = v) := by
  refine ⟨by decide, by decide, by decide, by decide, by decide, ?_⟩
  intro t v h
  unfold plural_to_singular_token
  rw [h]

/-- Witness for C4: the exception-map-first rule applied at the concrete
token "potatoes". -/
theorem C4_plural_folding_witness :
    plural_to_singular_token (str "potatoes") = str "potato" :=
  C4_plural_folding.2.2.2.2.2 (str "potatoes") (str "potato") (by decide)

/-! Model of difflib's `SequenceMatcher.ratio` and `get_close_matches` as
used by the parser.  The autojunk heuristic is not modelled: it only
affects sequences of length at least 200, far beyond the ingredient
strings this parser compares. -/

/-- Length of the common run at the heads of two lists. -/
def commonRun : List Nat → List Nat → Nat
  | x :: xs, y :: ys => if x = y then commonRun xs ys + 1 else 0
  | _, _ => 0

/-- All `(size, i, j)` candidate blocks in the scan order of difflib's
`find_longest_match` (`i` ascending, then `j` ascending). -/
def matchCandidates (a b : List Nat) : List (Nat × Nat × Nat) :=
  (List.range (a.length + 1)).flatMap (fun i =>
    (List.range (b.length + 1)).map (fun j =>
      (commonRun (a.drop i) (b.drop j), i, j)))

/-- The longest matching block: maximal size, then earliest `i`, then
earliest `j` — the block junk-free `find_longest_match` returns. -/
def findLongest (a b : List Nat) : Nat × Nat × Nat :=
  (matchCandidates a b).foldl (fun best c => if best.1 < c.1 then c else best)
    (0, 0, 0)

/-- Sum of the sizes of difflib's matching blocks (the recursion of
`get_matching_blocks` around the longest match), on an explicit fuel that
`matchTotal` instantiates large enough for its inputs. -/
def matchTotalF : Nat → List Nat → List Nat → Nat
  | 0, _, _ => 0
  | fuel + 1, a, b =>
    match findLongest a b with
    | (k, i, j) =>
      if k = 0 then 0
      else matchTotalF fuel (a.take i) (b.take j) + k +
        matchTotalF fuel (a.drop (i + k)) (b.drop (j + k))

/-- Total matched size between `a` and `b`. -/
def matchTotal (a b : List Nat) : Nat := matchTotalF (a.length + 1) a b

/-- Multiset-intersection size used by difflib's `quick_ratio`. -/
def commonCount (a b : List Nat) : Nat :=
  a.dedup.foldl (fun acc x => acc + min (a.count x) (b.count x)) 0

/-- difflib's `_calculate_ratio` as an exact rational (`2m/length`, or 1.0
for two empty sequences). -/
def calculateRatio (ms len : Nat) : ℚ :=
  if len = 0 then 1 else (2 * ms : ℚ) / (len : ℚ)

/-- `SequenceMatcher.ratio()`. -/
def ratioOf (a b : List Nat) : ℚ :=
  calculateRatio (matchTotal a b) (a.length + b.length)

/-- `SequenceMatcher.quick_ratio()`. -/
def quickRatioOf (a b : List Nat) : ℚ :=
  calculateRatio (commonCount a b) (a.length + b.length)

/-- `SequenceMatcher.real_quick_ratio()`. -/
def realQuickRatioOf (a b : List Nat) : ℚ :=
  calculateRatio (min a.length b.length) (a.length + b.length)

/-- The cutoff test of `get_close_matches` at cutoff 0.84 = 21/25: the two
quick upper bounds and the real ratio must all reach the cutoff. -/
def cutoffOk (cand w : List Nat) : Bool :=
  decide ((21/25 : ℚ) ≤ realQuickRatioOf cand w) &&
    decide ((21/25 : ℚ) ≤ quickRatioOf cand w) &&
    decide ((21/25 : ℚ) ≤ ratioOf cand w)

/-- Python string `<`: lexicographic comparison on code points. -/
def lexLt : List Nat → List Nat → Bool
  | [], [] => false
  | [], _ :: _ => true
  | _ :: _, [] => false
  | x :: xs, y :: ys => if x < y then true else if y < x then false else lexLt xs ys

/-- The `(ratio, word)` tuple order used by `heapq.nlargest` over
`[(s.ratio(), x) for x in possibilities]`: larger ratio, ties broken by the
larger word. -/
def betterWord (cand w best : List Nat) : Bool :=
  if ratioOf cand best < ratioOf cand w then true
  else if ratioOf cand w < ratioOf cand best then false
  else lexLt best w

/-- Model of `get_close_matches(cand, list(known), n=1, cutoff=0.84)`
restricted to its single result.  The result does not depend on the
iteration order of the `known` set because the `(ratio, word)` order is
total on distinct words. -/
def closeMatch (known : List (List Nat)) (cand : List Nat) : Option (List Nat) :=
  match known.filter (fun w => cutoffOk cand w) with
  | [] => none
  | w :: ws => some (ws.foldl (fun best x => if betterWord cand x best then x else best) w)

/-- Python regex `[a-z][a-z\s]+` full match: an ASCII lower-case letter
followed by one or more letters or whitespace. -/
def alphaSpaceOk : List Nat → Bool
  | [] => false
  | c :: rest =>
    decide (97 ≤ c ∧ c ≤ 122) && !rest.isEmpty &&
      rest.all (fun d => decide (97 ≤ d ∧ d ≤ 122) || isWs d)

/-- The candidate-emission step of `parse_text_to_ingredients`: an empty or
stopword candidate is dropped; otherwise an exact vocabulary hit is emitted
as is, a fuzzy vocabulary hit emits the matched vocabulary entry, and a
purely alphabetic-and-space candidate of length at least 3 is emitted
verbatim. -/
def candEmit (known : List (List Nat)) (cand : List Nat) : Option (List Nat) :=
  if cand = [] ∨ cand ∈ STOPWORDS then none
  else if cand ∈ known then some cand
  else match closeMatch known cand with
    | some w => some w
    | none =>
      if alphaSpaceOk cand && decide (3 ≤ cand.length) then some cand else none

/-! Models of the noise-stripping regexes of `_strip_units_prices_noise`.
Each `try…` function matches one regex at one position (with the
backtracking order of the Python engine made explicit) and returns the
number of consumed code points; `subScan` is `re.sub(pattern, " ", s)`,
scanning left to right over non-overlapping matches.  Word characters are
modelled over the ASCII repertoire; the inputs are already normalized and
lower-case, so the regexes' IGNORECASE flag is immaterial. -/

/-- ASCII decimal digit (`\d`). -/
def isDigit (c : Nat) : Bool := decide (48 ≤ c ∧ c ≤ 57)

/-- ASCII word character (`\w`), for word-boundary tests. -/
def isAsciiWord (c : Nat) : Bool :=
  isDigit c || decide (97 ≤ c ∧ c ≤ 122) || decide (65 ≤ c ∧ c ≤ 90) || c == 95

/-- Length of the leading digit run. -/
def digitSpan (l : List Nat) : Nat := (l.takeWhile isDigit).length

/-- Length of the leading whitespace run. -/
def wsSpan (l : List Nat) : Nat := (l.takeWhile isWs).length

/-- A `(?:\.\d+)` attempt: greedy length if present at the head. -/
def fracSpan (l : List Nat) : Option Nat :=
  match l with
  | 46 :: rest =>
    let d := digitSpan rest
    if d = 0 then none else some (1 + d)
  | _ => none

/-- Generic scanner for `re.sub(pattern, " ", s)`: `try` receives the
previous code point (for word boundaries; `none` at the string start) and
the remaining input, and returns the consumed length of a match. -/
def subScan (try0 : Option Nat → List Nat → Option Nat) :
    Nat → Option Nat → List Nat → List Nat
  | 0, _, l => l
  | _ + 1, _, [] => []
  | fuel + 1, prev, c :: rest =>
    match try0 prev (c :: rest) with
    | some n =>
      32 :: subScan try0 fuel ((c :: rest).take n).getLast? ((c :: rest).drop n)
    | none => c :: subScan try0 fuel (some c) rest

/-- The `\s*\d+(?:[.,]\d+)?` tail of PRICE_RE's first alternative. -/
def priceAfterPrefix (l1 : List Nat) : Option Nat :=
  let w := wsSpan l1
  let l2 := l1.drop w
  let d := digitSpan l2
  if d = 0 then none
  else
    let l3 := l2.drop d
    match l3 with
    | c :: rest =>
      if c == 46 || c == 44 then
        let d2 := digitSpan rest
        if d2 = 0 then some (w + d) else some (w + d + 1 + d2)
      else some (w + d)
    | [] => some (w + d)

/-- The currency prefixes `rs\.?|₹|\$|usd|inr`, in the engine's order
(`rs\.?` greedily tries the dotted form first). -/
def pricePrefixes : List (List Nat) :=
  [str "rs.", str "rs", [8377], [36], str "usd", str "inr"]

/-- First alternative of PRICE_RE: currency prefix, spaces, amount. -/
def tryPriceA (l : List Nat) : List (List Nat) → Option Nat
  | [] => none
  | p :: ps =>
    if p.isPrefixOf l then
      match priceAfterPrefix (l.drop p.length) with
      | some n => some (p.length + n)
      | none => tryPriceA l ps
    else tryPriceA l ps

/-- Second alternative of PRICE_RE: `\b\d+[.,]\d{2}\b`. -/
def tryPriceB (prev : Option Nat) (l : List Nat) : Option Nat :=
  let prevOk := match prev with
    | none => true
    | some pc => !isAsciiWord pc
  if !prevOk then none
  else
    let d := digitSpan l
    if d = 0 then none
    else match (l.drop d).head? with
      | some c =>
        if c == 46 || c == 44 then
          if 2 ≤ digitSpan (l.drop (d + 1)) then
            match (l.drop (d + 3)).head? with
            | none => some (d + 3)
            | some c2 => if isAsciiWord c2 then none else some (d + 3)
          else none
        else none
      | none => none

/-- PRICE_RE at one position: alternative A, then B. -/
def tryPrice (prev : Option Nat) (l : List Nat) : Option Nat :=
  match tryPriceA l pricePrefixes with
  | some n => some n
  | none => tryPriceB prev l

/-- The unit alternation `kg|g|gm|grams?|ml|l|liters?|litres?|pcs?|pc|pack|dozen`
expanded in engine order (optional `s` tried greedily first). -/
def qtyUnits : List (List Nat) :=
  [str "kg", str "g", str "gm", str "grams", str "gram", str "ml", str "l",
   str "liters", str "liter", str "litres", str "litre", str "pcs",
   str "pc", str "pc", str "pack", str "dozen"]

/-- Unit alternation followed by `\b`: the first alternative that is a
prefix and ends at a word boundary. -/
def findUnitA (l : List Nat) : List (List Nat) → Option Nat
  | [] => none
  | u :: us =>
    if u.isPrefixOf l then
      match (l.drop u.length).head? with
      | none => some u.length
      | some c => if isAsciiWord c then findUnitA l us else some u.length
    else findUnitA l us

/-- Unit alternation followed by `(?:$|\s)`: the first alternative that is a
prefix and is followed by the end or one consumed whitespace. -/
def findUnitB (l : List Nat) : List (List Nat) → Option Nat
  | [] => none
  | u :: us =>
    if u.isPrefixOf l then
      match (l.drop u.length).head? with
      | none => some u.length
      | some c => if isWs c then some (u.length + 1) else findUnitB l us
    else findUnitB l us

/-- The `\d+(?:\.\d+)?\s*UNITS` tail shared by QTY_UNIT_RE, parameterized by
the unit-suffix matcher. -/
def qtyTail (findUnit : List Nat → List (List Nat) → Option Nat)
    (l2 : List Nat) : Option Nat :=
  let d := digitSpan l2
  if d = 0 then none
  else
    let l3 := l2.drop d
    let withFrac : Option Nat :=
      match fracSpan l3 with
      | some f =>
        let l4 := l3.drop f
        let w := wsSpan l4
        match findUnit (l4.drop w) qtyUnits with
        | some u => some (d + f + w + u)
        | none => none
      | none => none
    match withFrac with
    | some n => some n
    | none =>
      let w := wsSpan l3
      match findUnit (l3.drop w) qtyUnits with
      | some u => some (d + w + u)
      | none => none

/-- First alternative of QTY_UNIT_RE:
`(?:^|\s)(?:x\s*)?\d+(?:\.\d+)?\s*UNITS\b`. -/
def tryQtyA (prev : Option Nat) (l : List Nat) : Option Nat :=
  let attempt : List Nat → Nat → Option Nat := fun l1 s0 =>
    let withX : Option Nat :=
      match l1 with
      | 120 :: r1 =>
        let w := wsSpan r1
        match qtyTail findUnitA (r1.drop w) with
        | some n => some (s0 + 1 + w + n)
        | none => none
      | _ => none
    match withX with
    | some n => some n
    | none =>
      match qtyTail findUnitA l1 with
      | some n => some (s0 + n)
      | none => none
  match prev with
  | none =>
    match attempt l 0 with
    | some n => some n
    | none =>
      match l with
      | c :: rest => if isWs c then attempt rest 1 else none
      | [] => none
  | some _ =>
    match l with
    | c :: rest => if isWs c then attempt rest 1 else none
    | [] => none

/-- Second alternative of QTY_UNIT_RE: `\b\d+(?:\.\d+)?\s*UNITS(?:$|\s)`. -/
def tryQtyB (prev : Option Nat) (l : List Nat) : Option Nat :=
  let prevOk := match prev with
    | none => true
    | some pc => !isAsciiWord pc
  if !prevOk then none else qtyTail findUnitB l

/-- QTY_UNIT_RE at one position: alternative A, then B. -/
def tryQty (prev : Option Nat) (l : List Nat) : Option Nat :=
  match tryQtyA prev l with
  | some n => some n
  | none => tryQtyB prev l

/-- The kitchen-measure unit alternation
`cups?|cup|tsp|tsps|teaspoons?|tbsp|tbsps|tablespoons?` in engine order. -/
def kitchenUnits : List (List Nat) :=
  [str "cups", str "cup", str "cup", str "tsp", str "tsps",
   str "teaspoons", str "teaspoon", str "tbsp", str "tbsps",
   str "tablespoons", str "tablespoon"]

/-- The `\s*UNITS\b` tail of LEADING_KITCHEN_UNITS_RE. -/
def kitchenRest (l : List Nat) (consumed : Nat) : Option Nat :=
  let w := wsSpan l
  match findUnitA (l.drop w) kitchenUnits with
  | some u => some (consumed + w + u)
  | none => none

/-- Numeric alternative `\d+\s*\d*/\d+` (whole number plus fraction). -/
def numAlt1 (l : List Nat) : Option Nat :=
  let d1 := digitSpan l
  if d1 = 0 then none
  else
    let l1 := l.drop d1
    let w := wsSpan l1
    let l2 := l1.drop w
    let d2 := digitSpan l2
    match (l2.drop d2).head? with
    | some 47 =>
      let d3 := digitSpan (l2.drop (d2 + 1))
      if d3 = 0 then none else some (d1 + w + d2 + 1 + d3)
    | _ => none

/-- Numeric alternative `\d+(?:\.\d+)?`, greedy fractional part. -/
def numAlt2 (l : List Nat) : Option Nat :=
  let d := digitSpan l
  if d = 0 then none
  else match fracSpan (l.drop d) with
    | some f => some (d + f)
    | none => some d

/-- Backtracked variant of `\d+(?:\.\d+)?` without the fractional part. -/
def numAlt2short (l : List Nat) : Option Nat :=
  let d := digitSpan l
  if d = 0 then none else some d

/-- Numeric alternative `\d*/\d+` (bare fraction). -/
def numAlt3 (l : List Nat) : Option Nat :=
  let d1 := digitSpan l
  match (l.drop d1).head? with
  | some 47 =>
    let d2 := digitSpan (l.drop (d1 + 1))
    if d2 = 0 then none else some (d1 + 1 + d2)
  | _ => none

/-- LEADING_KITCHEN_UNITS_RE, anchored at the start: optional amount (three
alternatives, then none, in backtracking order), then a kitchen unit at a
word boundary. -/
def tryKitchen (l : List Nat) : Option Nat :=
  let w0 := wsSpan l
  let l1 := l.drop w0
  let tryNum : Option Nat → Option Nat := fun oalt =>
    match oalt with
    | some n => kitchenRest (l1.drop n) (w0 + n)
    | none => none
  match tryNum (numAlt1 l1) with
  | some t => some t
  | none =>
    match tryNum (numAlt2 l1) with
    | some t => some t
    | none =>
      match tryNum (numAlt2short l1) with
      | some t => some t
      | none =>
        match tryNum (numAlt3 l1) with
        | some t => some t
        | none => kitchenRest l1 w0

/-- Parenthetical asides `\([^)]*\)`. -/
def tryParen (l : List Nat) : Option Nat :=
  match l with
  | 40 :: rest =>
    let k := (rest.takeWhile (fun c => c != 41)).length
    match (rest.drop k).head? with
    | some 41 => some (k + 2)
    | _ => none
  | _ => none

/-- Remaining bare numbers `\b\d+(?:\.\d+)?\b`. -/
def tryBareNum (prev : Option Nat) (l : List Nat) : Option Nat :=
  let prevOk := match prev with
    | none => true
    | some pc => !isAsciiWord pc
  if !prevOk then none
  else
    let d := digitSpan l
    if d = 0 then none
    else
      let withFrac : Option Nat :=
        match fracSpan (l.drop d) with
        | some f =>
          match (l.drop (d + f)).head? with
          | none => some (d + f)
          | some c => if isAsciiWord c then none else some (d + f)
        | none => none
      match withFrac with
      | some n => some n
      | none =>
        match (l.drop d).head? with
        | none => some d
        | some c => if isAsciiWord c then none else some d

/-- The leading bullet/list markers `^[-•*]+`. -/
def bulletChars : List Nat := [45, 0x2022, 42]

/-- Model of `_strip_units_prices_noise`: bullets, prices, quantity+unit,
leading kitchen measures, parentheticals, bare numbers, whitespace
collapse, strip. -/
def strip_units_prices_noise (s : List Nat) : List Nat :=
  let s1 := pyStrip isWs (s.dropWhile (fun c => bulletChars.contains c))
  let s2 := subScan tryPrice (s1.length + 1) none s1
  let s3 := subScan tryQty (s2.length + 1) none s2
  let s4 := match tryKitchen s3 with
    | some n => 32 :: s3.drop n
    | none => s3
  let s5 := subScan (fun _ l => tryParen l) (s4.length + 1) none s4
  let s6 := subScan tryBareNum (s5.length + 1) none s5
  pyStrip isWs (collapseWs false s6)

/-! The OCR text-to-ingredient parser (`parse_text_to_ingredients`). -/

/-- Line-break characters of Python `str.splitlines` (besides `\r\n`). -/
def lineBreakSet : List Nat := [10, 11, 12, 13, 28, 29, 30, 0x85, 0x2028, 0x2029]

/-- Helper for `splitLines`: accumulates the current line reversed. -/
def splitLinesAux (cur : List Nat) : List Nat → List (List Nat)
  | [] => if cur.isEmpty then [] else [cur.reverse]
  | 13 :: 10 :: rest2 => cur.reverse :: splitLinesAux [] rest2
  | c :: rest =>
    if lineBreakSet.contains c then cur.reverse :: splitLinesAux [] rest
    else splitLinesAux (c :: cur) rest

/-- Python `raw_text.splitlines()`. -/
def splitLines (l : List Nat) : List (List Nat) := splitLinesAux [] l

/-- Helper for `splitCommaSemi`.  `re.split(r"[,\;]+", line)` merges runs of
separators; splitting at every separator instead yields extra empty chunks,
each of which the parser skips, so the two are equivalent here. -/
def splitCommaAux (cur : List Nat) : List Nat → List (List Nat)
  | [] => [cur.reverse]
  | c :: rest =>
    if c == 44 || c == 59 then cur.reverse :: splitCommaAux [] rest
    else splitCommaAux (c :: cur) rest

/-- Splitting one line at commas and semicolons. -/
def splitCommaSemi (l : List Nat) : List (List Nat) := splitCommaAux [] l

/-- Helper for `splitWs`. -/
def splitWsAux (cur : List Nat) : List Nat → List (List Nat)
  | [] => if cur.isEmpty then [] else [cur.reverse]
  | c :: rest =>
    if isWs c then
      if cur.isEmpty then splitWsAux [] rest
      else cur.reverse :: splitWsAux [] rest
    else splitWsAux (c :: cur) rest

/-- Python `ch.split()`: split on whitespace runs, no empty tokens. -/
def splitWs (l : List Nat) : List (List Nat) := splitWsAux [] l

/-- Python `" ".join(tokens)`. -/
def joinSpaces : List (List Nat) → List Nat
  | [] => []
  | [t] => t
  | t :: u :: rest => t ++ 32 :: joinSpaces (u :: rest)

/-- Python `ch.replace("chilli", "chili")`: left-to-right, non-overlapping,
on an explicit fuel instantiated large enough. -/
def replaceChilli : Nat → List Nat → List Nat
  | 0, l => l
  | _ + 1, [] => []
  | fuel + 1, c :: rest =>
    if (str "chilli").isPrefixOf (c :: rest) then
      str "chili" ++ replaceChilli fuel ((c :: rest).drop 6)
    else c :: replaceChilli fuel rest

/-- Model of `_drop_stopwords_tokens`: keep non-empty non-stopword tokens of
length above 1. -/
def drop_stopwords_tokens (tokens : List (List Nat)) : List (List Nat) :=
  tokens.filter (fun t => !t.isEmpty && !(STOPWORDS.contains t) && decide (1 < t.length))

/-- The normalized known vocabulary: the base set united with the supplied
known set (Python set union; modelled as deduplicated list). -/
def knownOf (known_db : List (List Nat)) : List (List Nat) :=
  ((KNOWN_INGREDIENTS_BASE ++ known_db).map normalize).dedup

/-- Cleaning of a noise-stripped chunk: regional spelling replacement,
tokenization, per-token normalization, stopword dropping, plural folding,
re-normalization and candidate emission. -/
def cleanChunk (known : List (List Nat)) (ch : List Nat) : Option (List Nat) :=
  let ch2 := replaceChilli (ch.length + 1) ch
  let tokens := drop_stopwords_tokens ((splitWs ch2).map normalize)
  if tokens.isEmpty then none
  else candEmit known (normalize (joinSpaces (tokens.map plural_to_singular_token)))

/-- First-occurrence deduplication (the `seen` loop closing
`parse_text_to_ingredients`). -/
def dedupKeepFirst (seen : List (List Nat)) : List (List Nat) → List (List Nat)
  | [] => []
  | x :: rest =>
    if x ∈ seen then dedupKeepFirst seen rest
    else x :: dedupKeepFirst (x :: seen) rest

/-- Model of `parse_text_to_ingredients`: split into lines, split each line
at commas/semicolons, normalize and noise-strip each chunk, clean each
surviving chunk through the fuzzy matcher, and deduplicate preserving first
occurrence. -/
def parse_text_to_ingredients (raw : List Nat) (known_db : List (List Nat)) :
    List (List Nat) :=
  if raw.isEmpty then []
  else
    dedupKeepFirst []
      (((splitLines raw).flatMap (fun line =>
        (splitCommaSemi line).filterMap (fun chunk =>
          let s := normalize chunk
          if s.isEmpty then none
          else
            let s2 := strip_units_prices_noise s
            if s2.isEmpty then none else some s2))).filterMap
        (cleanChunk (knownOf known_db)))

/-! Properties of the fuzzy matcher and of candidate emission (C5), and the
output invariant of the parser (C10). -/

theorem foldl_choice_mem {α : Type} (f : α → α → Bool) :
    ∀ (ws : List α) (w : α),
      ws.foldl (fun best x => if f x best then x else best) w ∈ w :: ws := by
  intro ws
  induction ws with
  | nil => intro w; simp
  | cons x xs ih =>
    intro w
    show (xs.foldl (fun best x => if f x best then x else best)
      (if f x w then x else w)) ∈ _
    have hm := ih (if f x w then x else w)
    rcases List.mem_cons.mp hm with h | h
    · rw [h]
      by_cases hf : f x w = true
      · rw [if_pos hf]; simp
      · rw [if_neg hf]; simp
    · simp [h]

theorem closeMatch_mem_filter {known : List (List Nat)} {cand w : List Nat}
    (h : closeMatch known cand = some w) :
    w ∈ known.filter (fun x => cutoffOk cand x) := by
  unfold closeMatch at h
  cases hf : known.filter (fun x => cutoffOk cand x) with
  | nil => rw [hf] at h; cases h
  | cons w0 ws =>
    rw [hf] at h
    simp only [Option.some.injEq] at h
    have hm := foldl_choice_mem (fun x best => betterWord cand x best) ws w0
    simpa [← h] using hm

theorem closeMatch_mem {known : List (List Nat)} {cand w : List Nat}
    (h : closeMatch known cand = some w) : w ∈ known :=
  (List.mem_filter.mp (closeMatch_mem_filter h)).1

theorem closeMatch_cutoff {known : List (List Nat)} {cand w : List Nat}
    (h : closeMatch known cand = some w) : cutoffOk cand w = true :=
  (List.mem_filter.mp (closeMatch_mem_filter h)).2

theorem cutoffOk_nil {cand : List Nat} (h : cand ≠ []) : cutoffOk cand [] = false := by
  have hlen : cand.length ≠ 0 := fun hl => h (List.eq_nil_of_length_eq_zero hl)
  have hr : realQuickRatioOf cand [] = 0 := by
    unfold realQuickRatioOf calculateRatio
    rw [List.length_nil]
    simp only [Nat.min_zero, Nat.add_zero]
    rw [if_neg hlen]
    norm_num
  unfold cutoffOk
  rw [hr, decide_eq_false (by norm_num : ¬ ((21/25 : ℚ) ≤ 0))]
  simp

theorem closeMatch_ne_nil {known : List (List Nat)} {cand w : List Nat}
    (hcand : cand ≠ []) (h : closeMatch known cand = some w) : w ≠ [] := by
  intro hw
  subst hw
  have := closeMatch_cutoff h
  rw [cutoffOk_nil hcand] at this
  cases this

/-- Characterization of a successful candidate emission. -/
theorem candEmit_spec {known : List (List Nat)} {cand w : List Nat}
    (h : candEmit known cand = some w) :
    cand ≠ [] ∧ cand ∉ STOPWORDS ∧ w ≠ [] ∧
      (w ∈ known ∨ (w = cand ∧ alphaSpaceOk cand = true ∧ 3 ≤ cand.length)) := by
  unfold candEmit at h
  by_cases h1 : cand = [] ∨ cand ∈ STOPWORDS
  · rw [if_pos h1] at h; cases h
  · rw [if_neg h1] at h
    push_neg at h1
    refine ⟨h1.1, h1.2, ?_, ?_⟩
    · by_cases h2 : cand ∈ known
      · rw [if_pos h2] at h
        simp only [Option.some.injEq] at h
        rw [← h]
        exact h1.1
      · rw [if_neg h2] at h
        cases hcm : closeMatch known cand with
        | some w0 =>
          rw [hcm] at h
          simp only [Option.some.injEq] at h
          rw [← h]
          exact closeMatch_ne_nil h1.1 hcm
        | none =>
          rw [hcm] at h
          by_cases h3 : (alphaSpaceOk cand && decide (3 ≤ cand.length)) = true
          · rw [if_pos h3] at h
            simp only [Option.some.injEq] at h
            rw [← h]
            exact h1.1
          · rw [if_neg h3] at h; cases h
    · by_cases h2 : cand ∈ known
      · rw [if_pos h2] at h
        simp only [Option.some.injEq] at h
        exact Or.inl (by rw [← h]; exact h2)
      · rw [if_neg h2] at h
        cases hcm : closeMatch known cand with
        | some w0 =>
          rw [hcm] at h
          simp only [Option.some.injEq] at h
          exact Or.inl (by rw [← h]; exact closeMatch_mem hcm)
        | none =>
          rw [hcm] at h
          by_cases h3 : (alphaSpaceOk cand && decide (3 ≤ cand.length)) = true
          · rw [if_pos h3] at h
            simp only [Option.some.injEq] at h
            simp only [Bool.and_eq_true, decide_eq_true_eq] at h3
            exact Or.inr ⟨h.symm, h3.1, h3.2⟩
          · rw [if_neg h3] at h; cases h

theorem normalize_ws32 (t : List Nat) : ∀ c ∈ normalize t, isWs c = true → c = 32 := by
  have h := normalizedStr_normalize t
  unfold normalizedStr at h
  simp only [Bool.and_eq_true, List.all_eq_true] at h
  intro c hc hw
  exact ws_eq_space_of_fixed (h.1.1.1 c hc) hw

theorem alphaSpace_letters {x : List Nat} (ha : alphaSpaceOk x = true)
    (hws : ∀ c ∈ x, isWs c = true → c = 32) :
    x.all (fun c => decide (97 ≤ c ∧ c ≤ 122) || c == 32) = true := by
  cases x with
  | nil => simp [alphaSpaceOk] at ha
  | cons c rest =>
    simp only [alphaSpaceOk, Bool.and_eq_true, decide_eq_true_eq,
      List.all_eq_true] at ha
    rw [List.all_eq_true]
    intro d hd
    rcases List.mem_cons.mp hd with h | h
    · subst h
      simp [ha.1.1]
    · rcases Bool.or_eq_true _ _ |>.mp (ha.2 d h) with hl | hw
      · simp only [Bool.or_eq_true]
        exact Or.inl hl
      · have := hws d (by simp [h]) hw
        simp [this]

/-- Characterization of a successful chunk cleaning: the emitted string is
non-empty, is a vocabulary member or a lower-case-letters-and-spaces string
of length at least 3, and is a stopword only if the vocabulary itself
contains that stopword. -/
theorem cleanChunk_spec {known : List (List Nat)} {ch w : List Nat}
    (h : cleanChunk known ch = some w) :
    w ≠ [] ∧
      (w ∈ known ∨
        (w.all (fun c => decide (97 ≤ c ∧ c ≤ 122) || c == 32) = true ∧
          3 ≤ w.length)) ∧
      (w ∈ STOPWORDS → w ∈ known) := by
  simp only [cleanChunk] at h
  split at h
  · cases h
  · have hs := candEmit_spec h
    refine ⟨hs.2.2.1, ?_, ?_⟩
    · rcases hs.2.2.2 with hk | ⟨hw, ha, hl⟩
      · exact Or.inl hk
      · refine Or.inr ⟨?_, by rw [hw]; exact hl⟩
        rw [hw]
        exact alphaSpace_letters ha (normalize_ws32 _)
    · intro hstop
      rcases hs.2.2.2 with hk | ⟨hw, _, _⟩
      · exact hk
      · rw [hw] at hstop
        exact absurd hstop hs.2.1

theorem dedupKeepFirst_not_seen :
    ∀ (l seen : List (List Nat)) (x : List Nat),
      x ∈ dedupKeepFirst seen l → x ∉ seen := by
  intro l
  induction l with
  | nil =>
    intro seen x h
    simp [dedupKeepFirst] at h
  | cons y rest ih =>
    intro seen x h
    have hstep : dedupKeepFirst seen (y :: rest) =
        if y ∈ seen then dedupKeepFirst seen rest
        else y :: dedupKeepFirst (y :: seen) rest := rfl
    rw [hstep] at h
    by_cases hy : y ∈ seen
    · rw [if_pos hy] at h
      exact ih seen x h
    · rw [if_neg hy] at h
      rcases List.mem_cons.mp h with h1 | h1
      · subst h1; exact hy
      · have := ih (y :: seen) x h1
        exact fun hx => this (by simp [hx])

theorem dedupKeepFirst_nodup :
    ∀ (l seen : List (List Nat)), (dedupKeepFirst seen l).Nodup := by
  intro l
  induction l with
  | nil => intro seen; exact List.nodup_nil
  | cons y rest ih =>
    intro seen
    have hstep : dedupKeepFirst seen (y :: rest) =
        if y ∈ seen then dedupKeepFirst seen rest
        else y :: dedupKeepFirst (y :: seen) rest := rfl
    rw [hstep]
    by_cases hy : y ∈ seen
    · rw [if_pos hy]; exact ih seen
    · rw [if_neg hy]
      rw [List.nodup_cons]
      exact ⟨fun hmem => dedupKeepFirst_not_seen rest (y :: seen) y hmem (by simp),
        ih (y :: seen)⟩

theorem dedupKeepFirst_sub :
    ∀ (l seen : List (List Nat)) (x : List Nat),
      x ∈ dedupKeepFirst seen l → x ∈ l := by
  intro l
  induction l with
  | nil =>
    intro seen x h
    simp [dedupKeepFirst] at h
  | cons y rest ih =>
    intro seen x h
    have hstep : dedupKeepFirst seen (y :: rest) =
        if y ∈ seen then dedupKeepFirst seen rest
        else y :: dedupKeepFirst (y :: seen) rest := rfl
    rw [hstep] at h
    by_cases hy : y ∈ seen
    · rw [if_pos hy] at h
      exact List.mem_cons.mpr (Or.inr (ih seen x h))
    · rw [if_neg hy] at h
      rcases List.mem_cons.mp h with h1 | h1
      · exact List.mem_cons.mpr (Or.inl h1)
      · exact List.mem_cons.mpr (Or.inr (ih (y :: seen) x h1))

/-- C5 counterexample: the chunk "totals" survives the stopword token
filter, folds to the candidate "total", which consists solely of letters
and has length at least 3, yet the parser emits nothing for it (the
candidate itself is a stopword). -/
theorem C5_counterexample :
    cleanChunk (knownOf []) (str "totals") = none ∧
      plural_to_singular_token (str "totals") = str "total" ∧
      candEmit (knownOf []) (str "total") = none ∧
      alphaSpaceOk (str "total") = true ∧
      3 ≤ (str "total").length ∧
      str "total" ∈ STOPWORDS := by
  with_unfolding_all decide

/-- C5 (amended): a cleaned candidate chunk is emitted iff it is non-empty,
is not a stopword, and (a) exactly matches the known vocabulary, or (b)
approximate matching at cutoff 0.84 yields a best match (the matched
vocabulary entry is emitted), or (c) it consists solely of letters and
spaces with length at least 3 (emitted verbatim); "onionn" is accepted as
"onion" and "xyz123" is rejected against the base vocabulary. -/
theorem C5_candidate_emission :
    (∀ (known : List (List Nat)) (cand : List Nat),
      (candEmit known cand).isSome = true ↔
        (cand ≠ [] ∧ cand ∉ STOPWORDS ∧
          (cand ∈ known ∨ (closeMatch known cand).isSome = true ∨
            (alphaSpaceOk cand = true ∧ 3 ≤ cand.length)))) ∧
    (∀ (known : List (List Nat)) (cand : List Nat),
      cand ≠ [] → cand ∉ STOPWORDS → cand ∈ known →
        candEmit known cand = some cand) ∧
    (∀ (known : List (List Nat)) (cand w : List Nat),
      cand ≠ [] → cand ∉ STOPWORDS → cand ∉ known →
        closeMatch known cand = some w →
          candEmit known cand = some w ∧ w ∈ known) ∧
    candEmit (knownOf []) (str "onionn") = some (str "onion") ∧
    candEmit (knownOf []) (str "xyz123") = none := by
  refine ⟨?_, ?_, ?_, by with_unfolding_all decide, by with_unfolding_all decide⟩
  · intro known cand
    unfold candEmit
    by_cases h1 : cand = [] ∨ cand ∈ STOPWORDS
    · rw [if_pos h1]
      simp only [Option.isSome_none, Bool.false_eq_true, false_iff]
      rintro ⟨hne, hns, _⟩
      rcases h1 with h | h
      · exact hne h
      · exact hns h
    · rw [if_neg h1]
      push_neg at h1
      by_cases h2 : cand ∈ known
      · rw [if_pos h2]
        simp [h1.1, h1.2, h2]
      · rw [if_neg h2]
        cases hcm : closeMatch known cand with
        | some w0 => simp [h1.1, h1.2]
        | none =>
          by_cases h3 : (alphaSpaceOk cand && decide (3 ≤ cand.length)) = true
          · rw [if_pos h3]
            simp only [Bool.and_eq_true, decide_eq_true_eq] at h3
            simp [h1.1, h1.2, h3.1, h3.2]
          · rw [if_neg h3]
            simp only [Option.isSome_none, Bool.false_eq_true, false_iff]
            rintro ⟨_, _, hd⟩
            rcases hd with hk | hcm2 | ⟨ha, hl⟩
            · exact h2 hk
            · simp at hcm2
            · exact h3 (by simp [ha, hl])
  · intro known cand hne hns hk
    unfold candEmit
    rw [if_neg (by rintro (h | h); exact hne h; exact hns h), if_pos hk]
  · intro known cand w hne hns hnk hcm
    unfold candEmit
    rw [if_neg (by rintro (h | h); exact hne h; exact hns h), if_neg hnk, hcm]
    exact ⟨rfl, closeMatch_mem hcm⟩

/-- Witness for C5: the exact-match rule applied at the base vocabulary and
the candidate "salt". -/
theorem C5_candidate_emission_witness :
    candEmit (knownOf []) (str "salt") = some (str "salt") :=
  C5_candidate_emission.2.1 (knownOf []) (str "salt")
    (by decide) (by decide) (by with_unfolding_all decide)

/-- C10 counterexample: with a supplied known set containing the stopword
"total", the OCR text "totall" fuzzy-matches it, so the parser returns a
stopword. -/
theorem C10_counterexample :
    parse_text_to_ingredients (str "totall") [str "total"] = [str "total"] ∧
      str "total" ∈ STOPWORDS := by
  with_unfolding_all decide

/-- C10 (amended): every string returned by `parse_text_to_ingredients` is
non-empty, the output contains no duplicates, every element is a member of
the normalized known vocabulary (base united with the supplied set) or a
string of lower-case letters and spaces of length at least 3, and no
element is a stopword unless the vocabulary itself contains that
stopword. -/
theorem C10_parser_invariant :
    ∀ (raw : List Nat) (db : List (List Nat)),
      (parse_text_to_ingredients raw db).Nodup ∧
      ∀ x ∈ parse_text_to_ingredients raw db,
        x ≠ [] ∧
          (x ∈ knownOf db ∨
            (x.all (fun c => decide (97 ≤ c ∧ c ≤ 122) || c == 32) = true ∧
              3 ≤ x.length)) ∧
          (x ∈ STOPWORDS → x ∈ knownOf db) := by
  intro raw db
  unfold parse_text_to_ingredients
  by_cases hr : raw.isEmpty = true
  · rw [if_pos hr]
    exact ⟨List.nodup_nil, by simp⟩
  · rw [if_neg hr]
    refine ⟨dedupKeepFirst_nodup _ _, ?_⟩
    intro x hx
    have hx2 := dedupKeepFirst_sub _ _ _ hx
    rw [List.mem_filterMap] at hx2
    obtain ⟨ch, _, hch⟩ := hx2
    exact cleanChunk_spec hch

/-- Witness for C10: the parser invariant instantiated at the output element
"onion" of parsing the text "onion". -/
theorem C10_parser_invariant_witness :
    str "onion" ≠ ([] : List Nat) ∧
      (str "onion" ∈ knownOf [] ∨
        ((str "onion").all (fun c => decide (97 ≤ c ∧ c ≤ 122) || c == 32) = true ∧
          3 ≤ (str "onion").length)) ∧
      (str "onion" ∈ STOPWORDS → str "onion" ∈ knownOf []) :=
  (C10_parser_invariant (str "onion") []).2 (str "onion")
    (by with_unfolding_all decide)

/-! A stable descending insertion sort, modelling Python's stable
`list.sort(key=…, reverse=True)`: an element goes before every later
element whose key does not strictly exceed its own, so elements with equal
keys retain their original relative order. -/

section SortStable

variable {α κ : Type} (key : α → κ) (le : κ → κ → Bool)

/-- Insertion of `x` before the first element whose key is at most `x`'s. -/
def insertDesc (x : α) : List α → List α
  | [] => [x]
  | y :: ys => if le (key y) (key x) then x :: y :: ys else y :: insertDesc x ys

/-- Stable descending sort by `key` under the boolean order `le`. -/
def sortDesc : List α → List α
  | [] => []
  | x :: xs => insertDesc key le x (sortDesc xs)

theorem insertDesc_perm (x : α) :
    ∀ l : List α, (insertDesc key le x l).Perm (x :: l) := by
  intro l
  induction l with
  | nil => exact List.Perm.refl _
  | cons y ys ih =>
    show (if le (key y) (key x) then x :: y :: ys else y :: insertDesc key le x ys).Perm _
    by_cases h : le (key y) (key x) = true
    · rw [if_pos h]
    · rw [if_neg h]
      exact (List.Perm.cons y ih).trans (List.Perm.swap x y ys)

theorem sortDesc_perm : ∀ l : List α, (sortDesc key le l).Perm l := by
  intro l
  induction l with
  | nil => exact List.Perm.refl _
  | cons x xs ih =>
    exact (insertDesc_perm key le x (sortDesc key le xs)).trans (List.Perm.cons x ih)

theorem insertDesc_pairwise
    (htot : ∀ a b, le a b = true ∨ le b a = true)
    (htrans : ∀ a b c, le a b = true → le b c = true → le a c = true)
    (x : α) :
    ∀ l : List α, l.Pairwise (fun a b => le (key b) (key a) = true) →
      (insertDesc key le x l).Pairwise (fun a b => le (key b) (key a) = true) := by
  intro l
  induction l with
  | nil => intro _; exact List.pairwise_singleton _ _
  | cons y ys ih =>
    intro h
    rw [List.pairwise_cons] at h
    show (if le (key y) (key x) then x :: y :: ys else
      y :: insertDesc key le x ys).Pairwise _
    by_cases hle : le (key y) (key x) = true
    · rw [if_pos hle]
      rw [List.pairwise_cons]
      refine ⟨?_, List.pairwise_cons.mpr h⟩
      intro z hz
      rcases List.mem_cons.mp hz with h1 | h1
      · rw [h1]; exact hle
      · exact htrans _ _ _ (h.1 z h1) hle
    · rw [if_neg hle]
      rw [List.pairwise_cons]
      refine ⟨?_, ih h.2⟩
      intro z hz
      have hz2 := (insertDesc_perm key le x ys).mem_iff.mp hz
      rcases List.mem_cons.mp hz2 with h1 | h1
      · rw [h1]
        rcases htot (key x) (key y) with h2 | h2
        · exact h2
        · exact absurd h2 hle
      · exact h.1 z h1

theorem sortDesc_pairwise
    (htot : ∀ a b, le a b = true ∨ le b a = true)
    (htrans : ∀ a b c, le a b = true → le b c = true → le a c = true) :
    ∀ l : List α, (sortDesc key le l).Pairwise (fun a b => le (key b) (key a) = true) := by
  intro l
  induction l with
  | nil => exact List.Pairwise.nil
  | cons x xs ih => exact insertDesc_pairwise key le htot htrans x _ ih

theorem insertDesc_filter [DecidableEq κ]
    (hrefl : ∀ a, le a a = true) (x : α) (K : κ) :
    ∀ l : List α,
      (insertDesc key le x l).filter (fun a => decide (key a = K)) =
        if key x = K then x :: l.filter (fun a => decide (key a = K))
        else l.filter (fun a => decide (key a = K)) := by
  intro l
  induction l with
  | nil =>
    by_cases hx : key x = K
    · rw [if_pos hx]
      show [x].filter _ = _
      simp [hx]
    · rw [if_neg hx]
      show [x].filter _ = _
      simp [hx]
  | cons y ys ih =>
    show (if le (key y) (key x) then x :: y :: ys else
        y :: insertDesc key le x ys).filter _ = _
    by_cases hle : le (key y) (key x) = true
    · rw [if_pos hle]
      by_cases hx : key x = K
      · rw [if_pos hx]
        rw [List.filter_cons_of_pos (by simp [hx])]
      · rw [if_neg hx]
        rw [List.filter_cons_of_neg (by simp [hx])]
    · rw [if_neg hle]
      have hyx : key y ≠ key x := by
        intro he
        rw [he, hrefl] at hle
        exact hle rfl
      by_cases hx : key x = K
      · rw [if_pos hx]
        have hy : ¬ (key y = K) := by rw [← hx] at *; exact fun h2 => hyx h2
        rw [List.filter_cons_of_neg (by simp [hy]), ih, if_pos hx,
          List.filter_cons_of_neg (by simp [hy])]
      · rw [if_neg hx]
        by_cases hy : key y = K
        · rw [List.filter_cons_of_pos (by simp [hy]), ih, if_neg hx,
            List.filter_cons_of_pos (by simp [hy])]
        · rw [List.filter_cons_of_neg (by simp [hy]), ih, if_neg hx,
            List.filter_cons_of_neg (by simp [hy])]

theorem sortDesc_filter [DecidableEq κ]
    (hrefl : ∀ a, le a a = true) (K : κ) :
    ∀ l : List α,
      (sortDesc key le l).filter (fun a => decide (key a = K)) =
        l.filter (fun a => decide (key a = K)) := by
  intro l
  induction l with
  | nil => rfl
  | cons x xs ih =>
    show (insertDesc key le x (sortDesc key le xs)).filter _ = _
    rw [insertDesc_filter key le hrefl x K, ih]
    by_cases hx : key x = K
    · rw [if_pos hx, List.filter_cons_of_pos (by simp [hx])]
    · rw [if_neg hx, List.filter_cons_of_neg (by simp [hx])]

end SortStable

/-- The lexicographic boolean order on `(score, matchRatio, matchCount)`. -/
def keyLe3 (a b : ℚ × ℚ × ℕ) : Bool :=
  decide (a.1 < b.1 ∨ (a.1 = b.1 ∧ (a.2.1 < b.2.1 ∨ (a.2.1 = b.2.1 ∧ a.2.2 ≤ b.2.2))))

theorem keyLe3_refl (a : ℚ × ℚ × ℕ) : keyLe3 a a = true := by
  unfold keyLe3
  simp

theorem keyLe3_total (a b : ℚ × ℚ × ℕ) : keyLe3 a b = true ∨ keyLe3 b a = true := by
  unfold keyLe3
  simp only [decide_eq_true_eq]
  rcases lt_trichotomy a.1 b.1 with h | h | h
  · exact Or.inl (Or.inl h)
  · rcases lt_trichotomy a.2.1 b.2.1 with h2 | h2 | h2
    · exact Or.inl (Or.inr ⟨h, Or.inl h2⟩)
    · rcases le_total a.2.2 b.2.2 with h3 | h3
      · exact Or.inl (Or.inr ⟨h, Or.inr ⟨h2, h3⟩⟩)
      · exact Or.inr (Or.inr ⟨h.symm, Or.inr ⟨h2.symm, h3⟩⟩)
    · exact Or.inr (Or.inr ⟨h.symm, Or.inl h2⟩)
  · exact Or.inr (Or.inl h)

theorem keyLe3_trans (a b c : ℚ × ℚ × ℕ)
    (h1 : keyLe3 a b = true) (h2 : keyLe3 b c = true) : keyLe3 a c = true := by
  unfold keyLe3 at h1 h2 ⊢
  simp only [decide_eq_true_eq] at h1 h2 ⊢
  rcases h1 with h1 | ⟨e1, h1⟩
  · rcases h2 with h2 | ⟨e2, _⟩
    · exact Or.inl (h1.trans h2)
    · exact Or.inl (e2 ▸ h1)
  · rcases h2 with h2 | ⟨e2, h2⟩
    · exact Or.inl (e1 ▸ h2)
    · refine Or.inr ⟨e1.trans e2, ?_⟩
      rcases h1 with h1 | ⟨f1, h1⟩
      · rcases h2 with h2 | ⟨f2, _⟩
        · exact Or.inl (h1.trans h2)
        · exact Or.inl (f2 ▸ h1)
      · rcases h2 with h2 | ⟨f2, h2⟩
        · exact Or.inl (f1 ▸ h2)
        · exact Or.inr ⟨f1.trans f2, h1.trans h2⟩

/-- The lexicographic boolean order on `(matchRatio, matchCount)`. -/
def keyLe2 (a b : ℚ × ℕ) : Bool :=
  decide (a.1 < b.1 ∨ (a.1 = b.1 ∧ a.2 ≤ b.2))

theorem keyLe2_total (a b : ℚ × ℕ) : keyLe2 a b = true ∨ keyLe2 b a = true := by
  unfold keyLe2
  simp only [decide_eq_true_eq]
  rcases lt_trichotomy a.1 b.1 with h | h | h
  · exact Or.inl (Or.inl h)
  · rcases le_total a.2 b.2 with h2 | h2
    · exact Or.inl (Or.inr ⟨h, h2⟩)
    · exact Or.inr (Or.inr ⟨h.symm, h2⟩)
  · exact Or.inr (Or.inl h)

theorem keyLe2_trans (a b c : ℚ × ℕ)
    (h1 : keyLe2 a b = true) (h2 : keyLe2 b c = true) : keyLe2 a c = true := by
  unfold keyLe2 at h1 h2 ⊢
  simp only [decide_eq_true_eq] at h1 h2 ⊢
  rcases h1 with h1 | ⟨e1, h1⟩
  · rcases h2 with h2 | ⟨e2, _⟩
    · exact Or.inl (h1.trans h2)
    · exact Or.inl (e2 ▸ h1)
  · rcases h2 with h2 | ⟨e2, h2⟩
    · exact Or.inl (e1 ▸ h2)
    · exact Or.inr ⟨e1.trans e2, h1.trans h2⟩

/-! Data model of suggestor.py.  A recipe dict as produced by
`load_recipes`; the scoring engine takes it as given.  Integer fields are
`Int` (Python ints), scores are exact rationals. -/

/-- A recipe record. -/
structure Recipe where
  title : List Nat
  ingredients : List (List Nat)
  steps : List (List Nat) := []
  image_url : List Nat := []
  cuisine : List Nat := []
  diet : List (List Nat) := []
  time : Int := 0
  skill : List Nat := str "intermediate"
  servings : Int := 1
  taste_tags : List (List Nat) := []
deriving DecidableEq

/-- The transient preference parameters of `advanced_suggest_recipes`
(`None` and missing keys are modelled by the empty string / empty list /
zero, matching the `or`-defaults in the source). -/
structure Preferences where
  cuisine : List Nat := []
  taste : List Nat := []
  diet : List Nat := []
  allergies : List (List Nat) := []
  max_time : Int := 0
  skill_level : List Nat := []
deriving DecidableEq

/-- A per-100g nutrition record. -/
structure NutRec where
  calories : ℚ := 0
  protein : ℚ := 0
  carbs : ℚ := 0
  fat : ℚ := 0
deriving DecidableEq

/-- Component-wise addition of nutrition records (the
`for k in totals: totals[k] += …` loop). -/
def addNut (a b : NutRec) : NutRec :=
  { calories := a.calories + b.calories, protein := a.protein + b.protein,
    carbs := a.carbs + b.carbs, fat := a.fat + b.fat }

/-- Component-wise division of a nutrition record by a serving count. -/
def divNut (a : NutRec) (s : Int) : NutRec :=
  { calories := a.calories / (s : ℚ), protein := a.protein / (s : ℚ),
    carbs := a.carbs / (s : ℚ), fat := a.fat / (s : ℚ) }

/-- Model of nutrition.py `lookup`: the normalized name, then the singular
form (strip one trailing `s`), then the plural form (append `s`).  The
in-memory table `_NUTRITION_DB` is the parameter `db`. -/
def nutLookup (db : List Nat → Option NutRec) (ingredient : List Nat) :
    Option NutRec :=
  if ingredient = [] then none
  else
    match db (normalize ingredient) with
    | some d => some d
    | none =>
      if (str "s").isSuffixOf (normalize ingredient) then
        db ((normalize ingredient).take ((normalize ingredient).length - 1))
      else
        db (normalize ingredient ++ str "s")

/-- Model of nutrition.py `summarize`: component-wise sum over the
resolvable records, unresolved ingredients skipped. -/
def summarize (db : List Nat → Option NutRec) (ingredients : List (List Nat)) :
    NutRec :=
  ingredients.foldl
    (fun totals ing =>
      match nutLookup db ing with
      | none => totals
      | some info => addNut totals info)
    {}

/-- Model of nutrition.py `calculate_recipe_nutrition`: totals plus
per-serving figures, dividing by `int(recipe.get("servings", 1) or 1)`. -/
def calculate_recipe_nutrition (db : List Nat → Option NutRec) (r : Recipe) :
    NutRec × NutRec :=
  (summarize db r.ingredients,
   divNut (summarize db r.ingredients) (if r.servings = 0 then 1 else r.servings))

/-- Partition of a substitute list into (candidates, provided) preserving
order, the loop of substitutes.py `suggest_substitutes`. -/
def partitionSubs (avail : List (List Nat)) : List (List Nat) →
    List (List Nat) × List (List Nat)
  | [] => ([], [])
  | s :: rest =>
    let r := partitionSubs avail rest
    if s ∈ avail then (r.1, s :: r.2) else (s :: r.1, r.2)

/-- Model of substitutes.py `suggest_substitutes`: per missing ingredient,
the already-available substitutes if any, else all registered candidates,
else nothing.  `subMap` is `_SUB_MAP.get(·, [])`; the output dict is
modelled as the association list in `missing` order. -/
def suggest_substitutes (subMap : List Nat → List (List Nat))
    (missing : List (List Nat)) (available : List (List Nat)) :
    List (List Nat × List (List Nat)) :=
  missing.map (fun miss =>
    let cp := partitionSubs (available.map normalize) (subMap (normalize miss))
    (miss, if cp.2 ≠ [] then cp.2 else if cp.1 ≠ [] then cp.1 else []))

/-- Python `sub in string` (contiguous substring). -/
def isSubstr (needle : List Nat) : List Nat → Bool
  | [] => needle.isEmpty
  | c :: rest => needle.isPrefixOf (c :: rest) || isSubstr needle rest

/-- Ascending insertion for `sorted` over code-point order. -/
def insertAsc (x : List Nat) : List (List Nat) → List (List Nat)
  | [] => [x]
  | y :: ys => if lexLt x y then x :: y :: ys else y :: insertAsc x ys

/-- Python `sorted` on a list of strings (lexicographic code-point order). -/
def sortStr : List (List Nat) → List (List Nat)
  | [] => []
  | x :: xs => insertAsc x (sortStr xs)

/-- The normalized user ingredient set
`set(normalize(i) for i in user_ingredients if normalize(i))`. -/
def userSetOf (user_ingredients : List (List Nat)) : List (List Nat) :=
  ((user_ingredients.map normalize).filter (fun i => !i.isEmpty)).dedup

/-- The recipe ingredient set `set(recipe.get("ingredients", []))`. -/
def recipeSet (r : Recipe) : List (List Nat) := r.ingredients.dedup

/-- `sorted(list(user_set & recipe_set))`. -/
def matchedOf (user : List (List Nat)) (r : Recipe) : List (List Nat) :=
  sortStr ((recipeSet r).filter (fun i => decide (i ∈ user)))

/-- `sorted(list(recipe_set - user_set))`. -/
def missingOf (user : List (List Nat)) (r : Recipe) : List (List Nat) :=
  sortStr ((recipeSet r).filter (fun i => !(decide (i ∈ user))))

/-- `total = len(recipe_ings) or 1`. -/
def totalOf (r : Recipe) : Nat :=
  if (recipeSet r).length = 0 then 1 else (recipeSet r).length

/-- An entry of the threshold matcher's output. -/
structure SimpleEntry where
  title : List Nat
  image_url : List Nat
  match_count : Nat
  total_required : Nat
  match_ratio : ℚ
  matched : List (List Nat)
  missing : List (List Nat)
  ingredients : List (List Nat)
  steps : List (List Nat)
deriving DecidableEq

/-- The per-recipe body of `suggest_recipes`: skip empty recipes, keep a
recipe iff its match ratio reaches the threshold. -/
def scoreSimple (user : List (List Nat)) (threshold : ℚ) (r : Recipe) :
    Option SimpleEntry :=
  if (recipeSet r).length = 0 then none
  else if threshold ≤ ((matchedOf user r).length : ℚ) / ((recipeSet r).length : ℚ) then
    some { title := r.title, image_url := r.image_url,
           match_count := (matchedOf user r).length,
           total_required := (recipeSet r).length,
           match_ratio := ((matchedOf user r).length : ℚ) / ((recipeSet r).length : ℚ),
           matched := matchedOf user r, missing := missingOf user r,
           ingredients := recipeSet r, steps := r.steps }
  else none

/-- Model of suggestor.py `suggest_recipes`: threshold filter, then a stable
descending sort on `(match_ratio, match_count)`. -/
def suggest_recipes (user_ingredients : List (List Nat)) (recipes : List Recipe)
    (threshold : ℚ) : List SimpleEntry :=
  sortDesc (fun e => (e.match_ratio, e.match_count)) keyLe2
    (recipes.filterMap (scoreSimple (userSetOf user_ingredients) threshold))

/-- `_skill_to_rank` (`mapping.get(skill.lower(), 2)`). -/
def skillRank (s : List Nat) : Nat :=
  if s.map lowerChar = str "beginner" then 1
  else if s.map lowerChar = str "intermediate" then 2
  else if s.map lowerChar = str "expert" then 3
  else 2

/-- `_safe_div`. -/
def safeDiv (a b : ℚ) : ℚ := if b = 0 then 0 else a / b

/-- `normalize(preferences.get("cuisine") or "")`. -/
def prefsCuisineOf (p : Preferences) : List Nat := normalize p.cuisine

/-- `normalize(preferences.get("taste") or "")`. -/
def prefsTasteOf (p : Preferences) : List Nat := normalize p.taste

/-- `normalize(preferences.get("diet") or "")`. -/
def prefsDietOf (p : Preferences) : List Nat := normalize p.diet

/-- The normalized allergy set. -/
def prefsAllergiesOf (p : Preferences) : List (List Nat) :=
  (p.allergies.map normalize).dedup

/-- `int(preferences.get("max_time", 0) or 0)`. -/
def prefsMaxTimeOf (p : Preferences) : Int := p.max_time

/-- `normalize(preferences.get("skill_level") or "intermediate")`. -/
def prefsSkillOf (p : Preferences) : List Nat :=
  normalize (if p.skill_level.isEmpty then str "intermediate" else p.skill_level)

/-- Cuisine factor: 1.0 without a preference, else exact match against the
lower-cased recipe cuisine. -/
def cuisineScore (p : Preferences) (r : Recipe) : ℚ :=
  if prefsCuisineOf p ≠ [] then
    (if prefsCuisineOf p = r.cuisine.map lowerChar then 1 else 0)
  else 1

/-- Taste factor: 1.0 without a preference, else tag membership. -/
def tasteScore (p : Preferences) (r : Recipe) : ℚ :=
  if prefsTasteOf p ≠ [] then (if prefsTasteOf p ∈ r.taste_tags then 1 else 0)
  else 1

/-- Diet factor: 1.0 without a preference, else membership in the
lower-cased recipe diet tags. -/
def dietScore (p : Preferences) (r : Recipe) : ℚ :=
  if prefsDietOf p ≠ [] then
    (if prefsDietOf p ∈ r.diet.map (fun d => d.map lowerChar) then 1 else 0)
  else 1

/-- Time factor: `max(0, 1 − overrun / max(1, maxTime))` when both the
preference and the recipe time are non-zero, else 1.0. -/
def timeScore (p : Preferences) (r : Recipe) : ℚ :=
  if prefsMaxTimeOf p ≠ 0 ∧ r.time ≠ 0 then
    max 0 (1 - ((max 0 (r.time - prefsMaxTimeOf p) : Int) : ℚ) /
      ((max 1 (prefsMaxTimeOf p) : Int) : ℚ))
  else 1

/-- Skill factor: 1.0 when the user's rank reaches the recipe's, else the
rank ratio. -/
def skillScore (p : Preferences) (r : Recipe) : ℚ :=
  if skillRank r.skill ≤ skillRank (prefsSkillOf p) then 1
  else safeDiv (skillRank (prefsSkillOf p) : ℚ) (skillRank r.skill : ℚ)

/-- The allergy hard filter: some non-empty normalized allergy term is a
substring of some recipe ingredient. -/
def allergyHit (p : Preferences) (ings : List (List Nat)) : Bool :=
  (prefsAllergiesOf p).any (fun a => !a.isEmpty && ings.any (fun ing => isSubstr a ing))

/-- The weighted raw score of a recipe
(`0.55·ingredient + 0.12·cuisine + 0.08·taste + 0.08·diet + 0.05·time +
  0.02·skill − 0.20·missingPenalty`). -/
def rawScoreOf (p : Preferences) (user : List (List Nat)) (r : Recipe) : ℚ :=
  (0.55 : ℚ) * (((matchedOf user r).length : ℚ) / (totalOf r : ℚ)) +
    (0.12 : ℚ) * cuisineScore p r + (0.08 : ℚ) * tasteScore p r +
    (0.08 : ℚ) * dietScore p r + (0.05 : ℚ) * timeScore p r +
    (0.02 : ℚ) * skillScore p r -
    (0.20 : ℚ) *
      (if totalOf r = 0 then 0 else ((missingOf user r).length : ℚ) / (totalOf r : ℚ))

/-- `_compute_recipe_nutrition`: per-serving estimate over the raw
ingredient list. -/
def computeRecipeNutrition (db : List Nat → Option NutRec) (r : Recipe) : NutRec :=
  divNut (summarize db r.ingredients) (if r.servings = 0 then 1 else r.servings)

/-- The metadata snapshot attached to a scored recipe. -/
structure MetaInfo where
  cuisine : List Nat
  diet : List (List Nat)
  time : Int
  skill : List Nat
  servings : Int
  taste_tags : List (List Nat)
deriving DecidableEq

/-- An entry of the advanced ranker's output. -/
structure ScoredEntry where
  title : List Nat
  image_url : List Nat
  score : ℚ
  matched : List (List Nat)
  missing : List (List Nat)
  match_ratio : ℚ
  match_count : Nat
  total_required : Nat
  ingredients : List (List Nat)
  steps : List (List Nat)
  nutrition : NutRec
  substitutes : List (List Nat × List (List Nat))
  meta : MetaInfo
deriving DecidableEq

/-- The per-recipe body of `advanced_suggest_recipes`: allergy hard filter,
weighted score, exclusion of scores at most zero, enrichment with nutrition
and substitution data. -/
def scoreRecipe (p : Preferences) (user : List (List Nat))
    (db : List Nat → Option NutRec) (subMap : List Nat → List (List Nat))
    (r : Recipe) : Option ScoredEntry :=
  if allergyHit p (recipeSet r) then none
  else if rawScoreOf p user r ≤ 0 then none
  else some
    { title := r.title, image_url := r.image_url, score := rawScoreOf p user r,
      matched := matchedOf user r, missing := missingOf user r,
      match_ratio := ((matchedOf user r).length : ℚ) / (totalOf r : ℚ),
      match_count := (matchedOf user r).length, total_required := totalOf r,
      ingredients := recipeSet r, steps := r.steps,
      nutrition := computeRecipeNutrition db r,
      substitutes := suggest_substitutes subMap (missingOf user r) user,
      meta := { cuisine := r.cuisine, diet := r.diet, time := r.time,
                skill := r.skill, servings := r.servings,
                taste_tags := r.taste_tags } }

/-- The sort key `(score, match_ratio, match_count)`. -/
def keyOf (e : ScoredEntry) : ℚ × ℚ × ℕ := (e.score, e.match_ratio, e.match_count)

/-- Python `out[:top_n]` (negative stops count from the end). -/
def pyTakeTo {β : Type} (n : Int) (l : List β) : List β :=
  if 0 ≤ n then l.take n.toNat else l.take ((l.length : Int) + n).toNat

/-- Model of `advanced_suggest_recipes`: score and filter every recipe,
stable-sort descending on `(score, match_ratio, match_count)`, then
truncate to `top_n`. -/
def advanced_suggest_recipes (user_ingredients : List (List Nat))
    (recipes : List Recipe) (p : Preferences) (top_n : Int)
    (db : List Nat → Option NutRec) (subMap : List Nat → List (List Nat)) :
    List ScoredEntry :=
  pyTakeTo top_n (sortDesc keyOf keyLe3
    (recipes.filterMap (scoreRecipe p (userSetOf user_ingredients) db subMap)))

/-! C1 and C2: shape of the advanced ranking. -/

theorem scoreRecipe_inv {p : Preferences} {user : List (List Nat)}
    {db : List Nat → Option NutRec} {subMap : List Nat → List (List Nat)}
    {r : Recipe} {e : ScoredEntry}
    (h : scoreRecipe p user db subMap r = some e) :
    allergyHit p (recipeSet r) = false ∧ 0 < rawScoreOf p user r ∧
      e.score = rawScoreOf p user r ∧ e.ingredients = recipeSet r := by
  unfold scoreRecipe at h
  by_cases h1 : allergyHit p (recipeSet r) = true
  · rw [if_pos h1] at h; cases h
  · rw [if_neg h1] at h
    by_cases h2 : rawScoreOf p user r ≤ 0
    · rw [if_pos h2] at h; cases h
    · rw [if_neg h2] at h
      simp only [Option.some.injEq] at h
      refine ⟨Bool.not_eq_true _ |>.mp h1, lt_of_not_le h2, ?_, ?_⟩
      · rw [← h]
      · rw [← h]

theorem pyTakeTo_eq_take {β : Type} (n : Int) (l : List β) :
    ∃ k, pyTakeTo n l = l.take k := by
  unfold pyTakeTo
  split
  · exact ⟨n.toNat, rfl⟩
  · exact ⟨((l.length : Int) + n).toNat, rfl⟩

theorem advanced_mem {user : List (List Nat)} {recipes : List Recipe}
    {p : Preferences} {n : Int} {db : List Nat → Option NutRec}
    {subMap : List Nat → List (List Nat)} {e : ScoredEntry}
    (h : e ∈ advanced_suggest_recipes user recipes p n db subMap) :
    ∃ r ∈ recipes, scoreRecipe p (userSetOf user) db subMap r = some e := by
  unfold advanced_suggest_recipes at h
  obtain ⟨k, hk⟩ := pyTakeTo_eq_take n
    (sortDesc keyOf keyLe3 (recipes.filterMap (scoreRecipe p (userSetOf user) db subMap)))
  rw [hk] at h
  have h2 := (List.take_sublist k _).subset h
  have h3 := (sortDesc_perm keyOf keyLe3 _).mem_iff.mp h2
  rw [List.mem_filterMap] at h3
  exact h3

/-- C1 (amended): for nonnegative `topN` the output length is at most
`topN`; the output is sorted descending on the tuple
`(score, matchRatio, matchCount)`; among entries with equal tuples the
output is a prefix of the corpus-order scored list (stable sort); for
nonnegative `topN` the output is exactly the length-`topN` prefix of the
full sorted qualifying list — truncation happens only after sorting — so
its length is `min topN (number of qualifying recipes)`; and every
entry's weighted score is strictly positive. -/
theorem C1_ranking :
    ∀ (user : List (List Nat)) (recipes : List Recipe) (p : Preferences)
      (n : Int) (db : List Nat → Option NutRec)
      (subMap : List Nat → List (List Nat)),
      (0 ≤ n →
        ((advanced_suggest_recipes user recipes p n db subMap).length : Int) ≤ n) ∧
      (advanced_suggest_recipes user recipes p n db subMap).Pairwise
        (fun a b => keyLe3 (keyOf b) (keyOf a) = true) ∧
      (∀ K : ℚ × ℚ × ℕ,
        (advanced_suggest_recipes user recipes p n db subMap).filter
            (fun e => decide (keyOf e = K)) <+:
          (recipes.filterMap (scoreRecipe p (userSetOf user) db subMap)).filter
            (fun e => decide (keyOf e = K))) ∧
      (0 ≤ n →
        advanced_suggest_recipes user recipes p n db subMap =
          (sortDesc keyOf keyLe3
            (recipes.filterMap (scoreRecipe p (userSetOf user) db subMap))).take
            n.toNat ∧
        (advanced_suggest_recipes user recipes p n db subMap).length =
          min n.toNat
            (recipes.filterMap (scoreRecipe p (userSetOf user) db subMap)).length) ∧
      (∀ e ∈ advanced_suggest_recipes user recipes p n db subMap, 0 < e.score) := by
  intro user recipes p n db subMap
  refine ⟨?_, ?_, ?_, ?_, ?_⟩
  · intro hn
    unfold advanced_suggest_recipes pyTakeTo
    rw [if_pos hn]
    have h1 : (List.take n.toNat (sortDesc keyOf keyLe3
        (recipes.filterMap (scoreRecipe p (userSetOf user) db subMap)))).length ≤
        n.toNat := by
      rw [List.length_take]
      exact Nat.min_le_left _ _
    calc ((List.take n.toNat (sortDesc keyOf keyLe3
        (recipes.filterMap (scoreRecipe p (userSetOf user) db subMap)))).length : Int)
        ≤ (n.toNat : Int) := by exact_mod_cast h1
      _ = n := Int.toNat_of_nonneg hn
  · unfold advanced_suggest_recipes
    obtain ⟨k, hk⟩ := pyTakeTo_eq_take n (sortDesc keyOf keyLe3
      (recipes.filterMap (scoreRecipe p (userSetOf user) db subMap)))
    rw [hk]
    exact (sortDesc_pairwise keyOf keyLe3 keyLe3_total keyLe3_trans _).sublist
      (List.take_sublist k _)
  · intro K
    unfold advanced_suggest_recipes
    obtain ⟨k, hk⟩ := pyTakeTo_eq_take n (sortDesc keyOf keyLe3
      (recipes.filterMap (scoreRecipe p (userSetOf user) db subMap)))
    rw [hk]
    have h1 := (List.take_prefix k (sortDesc keyOf keyLe3
      (recipes.filterMap (scoreRecipe p (userSetOf user) db subMap)))).filter
      (fun e => decide (keyOf e = K))
    rw [sortDesc_filter keyOf keyLe3 keyLe3_refl K] at h1
    exact h1
  · intro hn
    have heq : advanced_suggest_recipes user recipes p n db subMap =
        (sortDesc keyOf keyLe3
          (recipes.filterMap (scoreRecipe p (userSetOf user) db subMap))).take
          n.toNat := by
      unfold advanced_suggest_recipes pyTakeTo
      rw [if_pos hn]
    refine ⟨heq, ?_⟩
    rw [heq, List.length_take,
      (sortDesc_perm keyOf keyLe3
        (recipes.filterMap (scoreRecipe p (userSetOf user) db subMap))).length_eq]
  · intro e he
    obtain ⟨r, _, hsc⟩ := advanced_mem he
    have h1 := scoreRecipe_inv hsc
    rw [h1.2.2.1]
    exact h1.2.1

/-- C1 counterexample: with `topN = -1` (a legal Python int), the slice
`out[:-1]` keeps all but the last entry, so a corpus with two qualifying
recipes yields one entry — not a list of length at most `topN`. -/
theorem C1_counterexample :
    ¬ (((advanced_suggest_recipes []
        [{ title := str "a", ingredients := [str "salt"] },
         { title := str "b", ingredients := [str "pepper"] }]
        {} (-1) (fun _ => none) (fun _ => [])).length : Int) ≤ -1) := by
  have h : (advanced_suggest_recipes []
      [{ title := str "a", ingredients := [str "salt"] },
       { title := str "b", ingredients := [str "pepper"] }]
      {} (-1) (fun _ => none) (fun _ => [])).length = 1 := by
    with_unfolding_all decide
  rw [h]
  decide

/-- Witness for C1: the amended ranking properties instantiated at a
one-recipe corpus. -/
theorem C1_ranking_witness :
    ((advanced_suggest_recipes [str "salt"]
        [{ title := str "t", ingredients := [str "salt"] }] {} 10
        (fun _ => none) (fun _ => [])).length : Int) ≤ 10 ∧
      (advanced_suggest_recipes [str "salt"]
        [{ title := str "t", ingredients := [str "salt"] }] {} 10
        (fun _ => none) (fun _ => [])).length =
        min (10 : Int).toNat
          (([{ title := str "t", ingredients := [str "salt"] }] :
              List Recipe).filterMap
            (scoreRecipe {} (userSetOf [str "salt"]) (fun _ => none)
              (fun _ => []))).length ∧
      (0 : ℚ) <
        ({ title := str "t", image_url := [], score := 9/10,
           matched := [str "salt"], missing := [], match_ratio := 1,
           match_count := 1, total_required := 1, ingredients := [str "salt"],
           steps := [], nutrition := {}, substitutes := [],
           meta := { cuisine := [], diet := [], time := 0,
                     skill := str "intermediate", servings := 1,
                     taste_tags := [] } } : ScoredEntry).score :=
  ⟨(C1_ranking [str "salt"] [{ title := str "t", ingredients := [str "salt"] }]
      {} 10 (fun _ => none) (fun _ => [])).1 (by decide),
   ((C1_ranking [str "salt"] [{ title := str "t", ingredients := [str "salt"] }]
      {} 10 (fun _ => none) (fun _ => [])).2.2.2.1 (by decide)).2,
   (C1_ranking [str "salt"] [{ title := str "t", ingredients := [str "salt"] }]
      {} 10 (fun _ => none) (fun _ => [])).2.2.2.2 _
     (by with_unfolding_all decide)⟩

theorem allergyHit_false {p : Preferences} {ings : List (List Nat)}
    (h : allergyHit p ings = false) :
    ∀ a ∈ prefsAllergiesOf p, a ≠ [] → ∀ ing ∈ ings, isSubstr a ing = false := by
  unfold allergyHit at h
  intro a ha hane ing hing
  rw [List.any_eq_false] at h
  have h2 := h a ha
  simp only [Bool.and_eq_true, Bool.not_eq_true', not_and] at h2
  have h3 : a.isEmpty = false := by
    cases a with
    | nil => exact absurd rfl hane
    | cons _ _ => rfl
  have h4 := h2 (by simp [h3])
  have h5 : (ings.any fun i => isSubstr a i) = false := Bool.not_eq_true _ |>.mp h4
  rw [List.any_eq_false] at h5
  simpa using h5 ing hing

/-- C2 counterexample: with the allergy list `["."]`, the normalized
allergy term is the empty string, which is a substring of every ingredient
name; the claim then demands that every recipe be excluded, but the code
skips empty allergy terms and the recipe is ranked. -/
theorem C2_counterexample :
    normalize (str ".") = [] ∧
      ([] : List Nat) ∈ prefsAllergiesOf { allergies := [str "."] } ∧
      isSubstr [] (str "salt") = true ∧
      (advanced_suggest_recipes []
          [{ title := str "t", ingredients := [str "salt"] }]
          { allergies := [str "."] } 10 (fun _ => none) (fun _ => [])).length = 1 := by
  with_unfolding_all decide

/-- C2 (amended): for every non-empty normalized allergy term `a`, no entry
of the ranked output contains an ingredient having `a` as a substring — a
recipe with such an ingredient is excluded regardless of score.  (The
amendment restricts the claim to allergy terms whose normalization is
non-empty; the code skips empty terms.) -/
theorem C2_allergy_exclusion :
    ∀ (user : List (List Nat)) (recipes : List Recipe) (p : Preferences)
      (n : Int) (db : List Nat → Option NutRec)
      (subMap : List Nat → List (List Nat)) (e : ScoredEntry) (a ing : List Nat),
      e ∈ advanced_suggest_recipes user recipes p n db subMap →
      a ∈ prefsAllergiesOf p → a ≠ [] → ing ∈ e.ingredients →
      isSubstr a ing = false := by
  intro user recipes p n db subMap e a ing he ha hane hing
  obtain ⟨r, _, hsc⟩ := advanced_mem he
  have h1 := scoreRecipe_inv hsc
  rw [h1.2.2.2] at hing
  exact allergyHit_false h1.1 a ha hane ing hing

/-- Witness for C2: a ranked entry with ingredient "salt" under the allergy
"nut" indeed has no allergy-substring hit. -/
theorem C2_allergy_exclusion_witness :
    isSubstr (str "nut") (str "salt") = false :=
  C2_allergy_exclusion []
    [{ title := str "t", ingredients := [str "salt"] }]
    { allergies := [str "nut"] } 10 (fun _ => none) (fun _ => [])
    { title := str "t", image_url := [], score := 3/20, matched := [],
      missing := [str "salt"], match_ratio := 0, match_count := 0,
      total_required := 1, ingredients := [str "salt"], steps := [],
      nutrition := {}, substitutes := [(str "salt", [])],
      meta := { cuisine := [], diet := [], time := 0,
                skill := str "intermediate", servings := 1, taste_tags := [] } }
    (str "nut") (str "salt")
    (by with_unfolding_all decide) (by with_unfolding_all decide)
    (by decide) (by decide)

/-! C7: the threshold matcher. -/

/-- C7: `suggest_recipes` includes a recipe iff its match ratio (matched
count over total required) reaches the threshold; recipes without
ingredients are skipped; the output is the sorted (descending on
`(match_ratio, match_count)`) permutation of exactly the included entries;
with threshold 0.6, a five-ingredient recipe with three matches is included
and with two matches is excluded. -/
theorem C7_threshold_matcher :
    (∀ (user : List (List Nat)) (th : ℚ) (r : Recipe),
      0 < (recipeSet r).length →
        ((scoreSimple user th r).isSome = true ↔
          th ≤ ((matchedOf user r).length : ℚ) / ((recipeSet r).length : ℚ))) ∧
    (∀ (user : List (List Nat)) (th : ℚ) (r : Recipe),
      (recipeSet r).length = 0 → scoreSimple user th r = none) ∧
    (∀ (u : List (List Nat)) (rs : List Recipe) (th : ℚ),
      (suggest_recipes u rs th).Pairwise (fun e1 e2 : SimpleEntry =>
        keyLe2 (e2.match_ratio, e2.match_count) (e1.match_ratio, e1.match_count) = true)) ∧
    (∀ (u : List (List Nat)) (rs : List Recipe) (th : ℚ),
      (suggest_recipes u rs th).Perm (rs.filterMap (scoreSimple (userSetOf u) th))) ∧
    (suggest_recipes [str "a", str "b", str "c"]
        [{ title := str "r",
           ingredients := [str "a", str "b", str "c", str "d", str "e"] }]
        (0.6 : ℚ)).length = 1 ∧
    suggest_recipes [str "a", str "b"]
        [{ title := str "r",
           ingredients := [str "a", str "b", str "c", str "d", str "e"] }]
        (0.6 : ℚ) = [] := by
  refine ⟨?_, ?_, ?_, ?_, by with_unfolding_all decide, by with_unfolding_all decide⟩
  · intro user th r h0
    unfold scoreSimple
    rw [if_neg (by omega)]
    by_cases h : th ≤ ((matchedOf user r).length : ℚ) / ((recipeSet r).length : ℚ)
    · rw [if_pos h]
      simpa using h
    · rw [if_neg h]
      simpa using h
  · intro user th r h0
    unfold scoreSimple
    rw [if_pos h0]
  · intro u rs th
    exact sortDesc_pairwise (fun e : SimpleEntry => (e.match_ratio, e.match_count))
      keyLe2 keyLe2_total keyLe2_trans _
  · intro u rs th
    exact sortDesc_perm (fun e : SimpleEntry => (e.match_ratio, e.match_count)) keyLe2 _

/-- Witness for C7: the inclusion rule instantiated at the five-ingredient
recipe with three matched ingredients. -/
theorem C7_threshold_matcher_witness :
    (scoreSimple (userSetOf [str "a", str "b", str "c"]) (0.6 : ℚ)
        { title := str "r",
          ingredients := [str "a", str "b", str "c", str "d", str "e"] }).isSome = true ↔
      (0.6 : ℚ) ≤
        ((matchedOf (userSetOf [str "a", str "b", str "c"])
            { title := str "r",
              ingredients := [str "a", str "b", str "c", str "d", str "e"] }).length : ℚ) /
          ((recipeSet
            { title := str "r",
              ingredients := [str "a", str "b", str "c", str "d", str "e"] }).length : ℚ) :=
  C7_threshold_matcher.1 (userSetOf [str "a", str "b", str "c"]) (0.6 : ℚ)
    { title := str "r", ingredients := [str "a", str "b", str "c", str "d", str "e"] }
    (by decide)

/-! C8: nutrition summation. -/

theorem addNut_empty_left (x : NutRec) : addNut {} x = x := by
  cases x
  simp [addNut]

theorem addNut_empty_right (x : NutRec) : addNut x {} = x := by
  cases x
  simp [addNut]

theorem addNut_assoc (x y z : NutRec) :
    addNut (addNut x y) z = addNut x (addNut y z) := by
  cases x; cases y; cases z
  simp only [addNut]
  congr 1 <;> ring

theorem foldl_nut_acc (db : List Nat → Option NutRec) :
    ∀ (ings : List (List Nat)) (acc : NutRec),
      ings.foldl
          (fun totals ing =>
            match nutLookup db ing with
            | none => totals
            | some info => addNut totals info)
          acc =
        addNut acc
          (ings.foldl
            (fun totals ing =>
              match nutLookup db ing with
              | none => totals
              | some info => addNut totals info)
            {}) := by
  intro ings
  induction ings with
  | nil => intro acc; simp [addNut_empty_right]
  | cons ing rest ih =>
    intro acc
    rw [List.foldl_cons, List.foldl_cons]
    cases h : nutLookup db ing with
    | none =>
      simp only [h]
      exact ih acc
    | some info =>
      simp only [h]
      rw [ih (addNut acc info), ih (addNut {} info), addNut_empty_left, addNut_assoc]

theorem summarize_acc (db : List Nat → Option NutRec) :
    ∀ (ings : List (List Nat)) (acc : NutRec),
      ings.foldl
          (fun totals ing =>
            match nutLookup db ing with
            | none => totals
            | some info => addNut totals info)
          acc =
        addNut acc (summarize db ings) := by
  intro ings acc
  unfold summarize
  exact foldl_nut_acc db ings acc

/-- C8: summation of resolvable per-100g records, component-wise; each
unresolved ingredient contributes exactly zero (no error); per-serving
figures divide the totals by `max(1, servings)` for any non-negative
serving count; with ingredients of 100 and 50 calories and servings 2, the
total is 150 and the per-serving figure 75. -/
theorem C8_nutrition :
    (∀ (db : List Nat → Option NutRec) (ing : List Nat) (rest : List (List Nat)),
      nutLookup db ing = none → summarize db (ing :: rest) = summarize db rest) ∧
    (∀ (db : List Nat → Option NutRec) (ing : List Nat) (rest : List (List Nat))
      (info : NutRec),
      nutLookup db ing = some info →
        summarize db (ing :: rest) = addNut info (summarize db rest)) ∧
    (∀ (db : List Nat → Option NutRec) (r : Recipe),
      0 ≤ r.servings →
        (calculate_recipe_nutrition db r).2 =
          divNut (calculate_recipe_nutrition db r).1 (max 1 r.servings)) ∧
    (calculate_recipe_nutrition
        (fun k => if k = str "apple" then some { calories := 100 }
          else if k = str "bread" then some { calories := 50 } else none)
        { title := str "x", ingredients := [str "apple", str "bread"],
          servings := 2 }).1.calories = 150 ∧
    (calculate_recipe_nutrition
        (fun k => if k = str "apple" then some { calories := 100 }
          else if k = str "bread" then some { calories := 50 } else none)
        { title := str "x", ingredients := [str "apple", str "bread"],
          servings := 2 }).2.calories = 75 := by
  refine ⟨?_, ?_, ?_, by with_unfolding_all decide, by with_unfolding_all decide⟩
  · intro db ing rest h
    unfold summarize
    rw [List.foldl_cons]
    simp only [h]
  · intro db ing rest info h
    unfold summarize
    rw [List.foldl_cons]
    simp only [h]
    rw [foldl_nut_acc db rest (addNut {} info), addNut_empty_left]
  · intro db r hs
    unfold calculate_recipe_nutrition
    by_cases h0 : r.servings = 0
    · rw [if_pos h0, h0]
      simp
    · rw [if_neg h0]
      have : max 1 r.servings = r.servings := max_eq_right (by omega)
      rw [this]

/-- Witness for C8: the per-serving rule instantiated at the two-ingredient
example recipe. -/
theorem C8_nutrition_witness :
    (calculate_recipe_nutrition
        (fun k => if k = str "apple" then some { calories := 100 }
          else if k = str "bread" then some { calories := 50 } else none)
        { title := str "x", ingredients := [str "apple", str "bread"],
          servings := 2 }).2 =
      divNut
        (calculate_recipe_nutrition
          (fun k => if k = str "apple" then some { calories := 100 }
            else if k = str "bread" then some { calories := 50 } else none)
          { title := str "x", ingredients := [str "apple", str "bread"],
            servings := 2 }).1
        (max 1 2) :=
  C8_nutrition.2.2.1
    (fun k => if k = str "apple" then some { calories := 100 }
      else if k = str "bread" then some { calories := 50 } else none)
    { title := str "x", ingredients := [str "apple", str "bread"], servings := 2 }
    (by decide)

/-! C9: the substitution advisor. -/

theorem partitionSubs_eq (avail : List (List Nat)) :
    ∀ subs : List (List Nat),
      partitionSubs avail subs =
        (subs.filter (fun s => !(decide (s ∈ avail))),
         subs.filter (fun s => decide (s ∈ avail))) := by
  intro subs
  induction subs with
  | nil => rfl
  | cons s rest ih =>
    show (let r := partitionSubs avail rest;
      if s ∈ avail then (r.1, s :: r.2) else (s :: r.1, r.2)) = _
    rw [ih]
    by_cases h : s ∈ avail
    · rw [if_pos h, List.filter_cons_of_neg (by simp [h]),
        List.filter_cons_of_pos (by simp [h])]
    · rw [if_neg h, List.filter_cons_of_pos (by simp [h]),
        List.filter_cons_of_neg (by simp [h])]

/-- The per-ingredient rule of `suggest_substitutes`: already-available
substitutes when that subset is non-empty, otherwise the full registered
list (which is also the result when nothing is registered). -/
theorem suggest_substitutes_eq (subMap : List Nat → List (List Nat))
    (missing available : List (List Nat)) :
    suggest_substitutes subMap missing available =
      missing.map (fun m =>
        (m,
         if (subMap (normalize m)).filter
              (fun s => decide (s ∈ available.map normalize)) = []
         then subMap (normalize m)
         else (subMap (normalize m)).filter
              (fun s => decide (s ∈ available.map normalize)))) := by
  unfold suggest_substitutes
  congr 1
  funext m
  rw [partitionSubs_eq]
  dsimp only
  by_cases hp : (subMap (normalize m)).filter
      (fun s => decide (s ∈ available.map normalize)) = []
  · have hall : ∀ s ∈ subMap (normalize m), ¬ (s ∈ available.map normalize) := by
      intro s hs hmem
      have hmem2 : s ∈ (subMap (normalize m)).filter
          (fun s => decide (s ∈ available.map normalize)) :=
        List.mem_filter.mpr ⟨hs, by simpa using hmem⟩
      rw [hp] at hmem2
      cases hmem2
    have hcand : (subMap (normalize m)).filter
        (fun s => !(decide (s ∈ available.map normalize))) = subMap (normalize m) :=
      List.filter_eq_self.mpr (fun s hs => by simpa using hall s hs)
    rw [hp, hcand, if_neg (by simp), if_pos rfl]
    by_cases hsub : subMap (normalize m) = []
    · rw [if_neg (by simpa using hsub), hsub]
    · rw [if_pos hsub]
  · rw [if_pos hp, if_neg hp]

/-- C9: per missing ingredient, `suggest_substitutes` returns the
registered substitutes already present in the normalized available set when
that subset is non-empty, otherwise the full registered list, otherwise an
empty list; in particular, of a registered pair with exactly one entry
available, only the available one is returned. -/
theorem C9_substitutes :
    (∀ (subMap : List Nat → List (List Nat)) (missing available : List (List Nat)),
      suggest_substitutes subMap missing available =
        missing.map (fun m =>
          (m,
           if (subMap (normalize m)).filter
                (fun s => decide (s ∈ available.map normalize)) = []
           then subMap (normalize m)
           else (subMap (normalize m)).filter
                (fun s => decide (s ∈ available.map normalize))))) ∧
    (∀ (subMap : List Nat → List (List Nat)) (m s1 s2 : List Nat)
      (available : List (List Nat)),
      subMap (normalize m) = [s1, s2] →
      s1 ∉ available.map normalize → s2 ∈ available.map normalize →
      suggest_substitutes subMap [m] available = [(m, [s2])]) := by
  refine ⟨suggest_substitutes_eq, ?_⟩
  intro subMap m s1 s2 available hmap h1 h2
  rw [suggest_substitutes_eq]
  simp only [List.map_cons, List.map_nil, hmap]
  rw [List.filter_cons_of_neg (by simpa using h1),
    List.filter_cons_of_pos (by simpa using h2)]
  simp

/-! C6: monotonicity of the weighted score in the missing set. -/

theorem insertAsc_perm (x : List Nat) :
    ∀ l : List (List Nat), (insertAsc x l).Perm (x :: l) := by
  intro l
  induction l with
  | nil => exact List.Perm.refl _
  | cons y ys ih =>
    show (if lexLt x y then x :: y :: ys else y :: insertAsc x ys).Perm _
    by_cases h : lexLt x y = true
    · rw [if_pos h]
    · rw [if_neg h]
      exact (List.Perm.cons y ih).trans (List.Perm.swap x y ys)

theorem sortStr_perm : ∀ l : List (List Nat), (sortStr l).Perm l := by
  intro l
  induction l with
  | nil => exact List.Perm.refl _
  | cons x xs ih => exact (insertAsc_perm x (sortStr xs)).trans (List.Perm.cons x ih)

theorem length_filter_split (l : List (List Nat)) (p : List Nat → Bool) :
    (l.filter p).length + (l.filter (fun x => !(p x))).length = l.length := by
  induction l with
  | nil => rfl
  | cons x rest ih =>
    by_cases h : p x = true
    · rw [List.filter_cons_of_pos h, List.filter_cons_of_neg (by simp [h])]
      simp only [List.length_cons]
      omega
    · rw [List.filter_cons_of_neg (by simpa using h),
        List.filter_cons_of_pos (by simp [Bool.not_eq_true _ |>.mp h])]
      simp only [List.length_cons]
      omega

theorem recipeSet_split (user : List (List Nat)) (r : Recipe) :
    (recipeSet r).length =
      (matchedOf user r).length + (missingOf user r).length := by
  unfold matchedOf missingOf
  rw [(sortStr_perm _).length_eq, (sortStr_perm _).length_eq]
  exact (length_filter_split (recipeSet r) (fun i => decide (i ∈ user))).symm

theorem missingOf_nodup (user : List (List Nat)) (r : Recipe) :
    (missingOf user r).Nodup := by
  unfold missingOf
  exact ((sortStr_perm _).nodup_iff).mpr
    (List.Nodup.filter _ (List.nodup_dedup r.ingredients))

theorem missing_len_le {user : List (List Nat)} {rA rB : Recipe}
    (h : ∀ x ∈ missingOf user rB, x ∈ missingOf user rA) :
    (missingOf user rB).length ≤ (missingOf user rA).length := by
  have hcard : (missingOf user rB).toFinset.card ≤ (missingOf user rA).toFinset.card := by
    apply Finset.card_le_card
    intro x hx
    rw [List.mem_toFinset] at hx ⊢
    exact h x hx
  rwa [List.toFinset_card_of_nodup (missingOf_nodup user rB),
    List.toFinset_card_of_nodup (missingOf_nodup user rA)] at hcard

theorem totalOf_ne_zero (r : Recipe) : totalOf r ≠ 0 := by
  unfold totalOf
  split <;> omega

theorem score_frac_mono (m b a : ℕ) (hba : b ≤ a) :
    (0.55 : ℚ) * ((m : ℚ) / (((if m + a = 0 then 1 else m + a) : ℕ) : ℚ)) -
        (0.20 : ℚ) * ((a : ℚ) / (((if m + a = 0 then 1 else m + a) : ℕ) : ℚ)) ≤
      (0.55 : ℚ) * ((m : ℚ) / (((if m + b = 0 then 1 else m + b) : ℕ) : ℚ)) -
        (0.20 : ℚ) * ((b : ℚ) / (((if m + b = 0 then 1 else m + b) : ℕ) : ℚ)) := by
  rcases Nat.eq_zero_or_pos (m + a) with h1 | h1
  · have hm0 : m = 0 := by omega
    have ha0 : a = 0 := by omega
    have hb0 : b = 0 := by omega
    subst hm0
    subst ha0
    subst hb0
    norm_num
  · rw [if_neg (by omega : ¬ (m + a = 0))]
    rcases Nat.eq_zero_or_pos (m + b) with h2 | h2
    · have hm0 : m = 0 := by omega
      have hb0 : b = 0 := by omega
      rw [if_pos h2]
      subst hm0
      subst hb0
      have haQ : (0:ℚ) < ((0 + a : ℕ) : ℚ) := by exact_mod_cast h1
      push_cast at haQ ⊢
      rw [zero_add] at haQ ⊢
      rw [div_self (ne_of_gt haQ)]
      norm_num
    · rw [if_neg (by omega : ¬ (m + b = 0))]
      have hA : (0:ℚ) < ((m + a : ℕ) : ℚ) := by exact_mod_cast h1
      have hB : (0:ℚ) < ((m + b : ℕ) : ℚ) := by exact_mod_cast h2
      have e1 : ∀ (x y t : ℚ),
          (0.55:ℚ) * (x / t) - (0.20:ℚ) * (y / t) =
            ((0.55:ℚ) * x - (0.20:ℚ) * y) / t := by
        intro x y t
        ring
      rw [e1, e1, div_le_div_iff₀ hA hB]
      push_cast
      nlinarith [mul_nonneg (show (0:ℚ) ≤ (m:ℚ) from by positivity)
        (show (0:ℚ) ≤ (a:ℚ) - (b:ℚ) from by
          have hba2 : (b:ℚ) ≤ (a:ℚ) := by exact_mod_cast hba
          linarith)]

/-- C6: with the same user ingredient set and preferences, for two recipes
identical in every scored attribute (cuisine, taste tags, diet, time,
skill) and with the same matched set, if recipe B's missing set is
contained in recipe A's then B's weighted score is at least A's. -/
theorem C6_score_monotonicity :
    ∀ (p : Preferences) (user : List (List Nat)) (rA rB : Recipe),
      matchedOf user rA = matchedOf user rB →
      (∀ x ∈ missingOf user rB, x ∈ missingOf user rA) →
      rA.cuisine = rB.cuisine → rA.taste_tags = rB.taste_tags →
      rA.diet = rB.diet → rA.time = rB.time → rA.skill = rB.skill →
      rawScoreOf p user rA ≤ rawScoreOf p user rB := by
  intro p user rA rB hm hmiss hc ht hd htime hsk
  have hcu : cuisineScore p rA = cuisineScore p rB := by
    unfold cuisineScore
    rw [hc]
  have hta : tasteScore p rA = tasteScore p rB := by
    unfold tasteScore
    rw [ht]
  have hdi : dietScore p rA = dietScore p rB := by
    unfold dietScore
    rw [hd]
  have hti : timeScore p rA = timeScore p rB := by
    unfold timeScore
    rw [htime]
  have hskl : skillScore p rA = skillScore p rB := by
    unfold skillScore
    rw [hsk]
  have hba : (missingOf user rB).length ≤ (missingOf user rA).length :=
    missing_len_le hmiss
  have hTA : totalOf rA = if (matchedOf user rB).length + (missingOf user rA).length = 0
      then 1 else (matchedOf user rB).length + (missingOf user rA).length := by
    unfold totalOf
    rw [recipeSet_split user rA, hm]
  have hTB : totalOf rB = if (matchedOf user rB).length + (missingOf user rB).length = 0
      then 1 else (matchedOf user rB).length + (missingOf user rB).length := by
    unfold totalOf
    rw [recipeSet_split user rB]
  unfold rawScoreOf
  rw [if_neg (totalOf_ne_zero rA), if_neg (totalOf_ne_zero rB),
    hcu, hta, hdi, hti, hskl, hm, hTA, hTB]
  have hkey := score_frac_mono (matchedOf user rB).length
    (missingOf user rB).length (missingOf user rA).length hba
  linarith [hkey]

/-- Witness for C6: the monotonicity instantiated at a three-ingredient
recipe versus its two-ingredient restriction. -/
theorem C6_score_monotonicity_witness :
    rawScoreOf {} [str "x"]
        { title := str "a", ingredients := [str "x", str "y", str "z"] } ≤
      rawScoreOf {} [str "x"]
        { title := str "b", ingredients := [str "x", str "y"] } :=
  C6_score_monotonicity {} [str "x"]
    { title := str "a", ingredients := [str "x", str "y", str "z"] }
    { title := str "b", ingredients := [str "x", str "y"] }
    (by with_unfolding_all decide) (by with_unfolding_all decide)
    (by decide) (by decide) (by decide) (by decide) (by decide)

/-- Witness for C9: the one-available-one-not rule instantiated at a
"butter" → ["ghee", "oil"] table with "oil" available. -/
theorem C9_substitutes_witness :
    suggest_substitutes
        (fun k => if k = str "butter" then [str "ghee", str "oil"] else [])
        [str "butter"] [str "oil"] = [(str "butter", [str "oil"])] :=
  C9_substitutes.2
    (fun k => if k = str "butter" then [str "ghee", str "oil"] else [])
    (str "butter") (str "ghee") (str "oil") [str "oil"]
    (by with_unfolding_all decide) (by with_unfolding_all decide)
    (by with_unfolding_all decide)

end CulinaLens
